import Mathlib

/-! Verification of the wgsl-plus text-processing pipeline: a shallow embedding
of the tokenizer (src/tokenizeWgsl.ts), the macro expander and expression
evaluator (src/tools/preprocessing/evaluator.ts and macro-expander.ts), the
conditional-compilation state machine
(src/tools/preprocessing/conditional-processor.ts) and the obfuscator passes
(src/tools/obfuscation/* and src/obfuscation/*), together with theorems about
them. JS strings are modelled as `List Char`; the JS regex classes `\w` and
`\d` are `[A-Za-z0-9_]` and `[0-9]`; `\s` is modelled by the ASCII whitespace
characters. Bounded loops in the source (`while` with a change flag or a
manually advanced index) are modelled with an explicit fuel argument that
callers instantiate with a bound large enough to make the fuel case
unreachable. -/

namespace WgslPlus

/-- JS word character class `[A-Za-z0-9_]` (the regex `\w` and the class used
by the word-boundary `\b` checks). -/
def isWordChar (c : Char) : Bool := c.isAlpha || c.isDigit || c == '_'

/-- First character of a JS identifier, `[a-zA-Z_]`. -/
def isIdentStartChar (c : Char) : Bool := c.isAlpha || c == '_'

/-- JS whitespace class `\s`, modelled by its ASCII members. -/
def isJsSpace (c : Char) : Bool :=
  c == ' ' || c == '\t' || c == '\n' || c == '\r' || c == '\x0b' || c == '\x0c'

/-- JS `String.prototype.trim` on a character list. -/
def jsTrimList (s : List Char) : List Char :=
  ((s.dropWhile isJsSpace).reverse.dropWhile isJsSpace).reverse

/-- JS `String.prototype.trim`. -/
def jsTrim (s : String) : String := ⟨jsTrimList s.data⟩

/-- Index of the first occurrence of `pat` in `s` (JS `String.prototype.indexOf`),
`none` when absent. -/
def findSub (pat : List Char) : List Char → Option Nat
  | [] => if pat.isEmpty then some 0 else none
  | c :: t => if pat.isPrefixOf (c :: t) then some 0 else (findSub pat t).map (· + 1)

/-- Whether `pat` occurs as a contiguous substring of `s` (JS `includes`). -/
def containsSub (pat s : List Char) : Bool := (findSub pat s).isSome

/-- Replace the first occurrence of `pat` in `s` by the literal text `repl`.
Used for the source's `replace` calls whose replacement text is the constant
`"1"`, on which the `GetSubstitution` expansion of a string replacement is the
identity, so the plain splice coincides with JS `String.prototype.replace`. -/
def replaceFirstSub (pat repl s : List Char) : List Char :=
  match findSub pat s with
  | none => s
  | some i => s.take i ++ repl ++ s.drop (i + pat.length)

/-- The `GetSubstitution` expansion of a replacement text, for a string
pattern (JS `String.prototype.replace` with a string replacement): `$$` is a
literal dollar, `$&` the matched text, a dollar followed by a backquote the
text before the match, a dollar followed by a single quote the text after it;
every other dollar (including `$<` and `$` digit, as a string pattern has no
capture groups) is kept literally. -/
def jsSubstitution (matched before after : List Char) : List Char → List Char
  | [] => []
  | '$' :: c :: rest =>
    if c == '$' then '$' :: jsSubstitution matched before after rest
    else if c == '&' then matched ++ jsSubstitution matched before after rest
    else if c == '\x60' then before ++ jsSubstitution matched before after rest
    else if c == '\x27' then after ++ jsSubstitution matched before after rest
    else '$' :: c :: jsSubstitution matched before after rest
  | c :: rest => c :: jsSubstitution matched before after rest

/-- JS `String.prototype.replace` with a string pattern and a string
replacement: the first occurrence of `pat` is replaced by `repl` expanded
through `GetSubstitution` (the matched text of a string pattern is the pattern
itself). -/
def replaceFirstSubJs (pat repl s : List Char) : List Char :=
  match findSub pat s with
  | none => s
  | some i =>
    s.take i ++ jsSubstitution pat (s.take i) (s.drop (i + pat.length)) repl ++
      s.drop (i + pat.length)

/-- Numeric value of a decimal digit string (JS `parseInt(s, 10)` on an
all-digit string). -/
def natFromDigits (ds : List Char) : Nat :=
  ds.foldl (fun acc c => acc * 10 + (c.toNat - 48)) 0

/-- One digit of a base-36 number, lowercase as produced by JS
`Number.prototype.toString(36)`. -/
def base36Char (n : Nat) : Char :=
  if n < 10 then Char.ofNat (48 + n) else Char.ofNat (87 + n)

/-- Base-36 rendering of a natural number (JS `n.toString(36)`). Fuel is
instantiated with `n + 1`, which exceeds the digit count. -/
def base36Go : Nat → Nat → List Char → List Char
  | 0, n, acc => base36Char n :: acc
  | fuel + 1, n, acc =>
    if n < 36 then base36Char n :: acc
    else base36Go fuel (n / 36) (base36Char (n % 36) :: acc)

/-- JS `n.toString(36)` as a string. -/
def base36 (n : Nat) : String := ⟨base36Go (n + 1) n []⟩

/-! ## Tokenizer (src/tokenizeWgsl.ts)

Each matcher models one of the anchored regexes of `tokenizeWgsl`, returning
the number of characters the regex would consume at the start of the input,
`none` when it does not match there. -/

/-- A token as produced by the tokenizer: a type tag (kept as a string, as in
the source) and the matched text. -/
structure Token where
  type : String
  value : String
deriving DecidableEq, Repr

/-- The fatal tokenizer error: the offending character and its position
(`Unexpected character at position ${index}: ${code[index]}`). -/
structure LexError where
  pos : Nat
  char : Char
deriving DecidableEq, Repr

/-- The keyword set of src/wgsl-keywords.ts (identical to the list repeated in
the legacy tokenizer variants). -/
def wgslKeywords : List String :=
  ["array", "atomic", "bool", "f32", "f16", "i32", "mat2x2", "mat2x3", "mat2x4",
   "mat3x2", "mat3x3", "mat3x4", "mat4x2", "mat4x3", "mat4x4", "ptr", "sampler",
   "sampler_comparison", "texture_1d", "texture_2d", "texture_2d_array", "texture_3d",
   "texture_cube", "texture_cube_array", "texture_multisampled_2d", "texture_storage_1d",
   "texture_storage_2d", "texture_storage_2d_array", "texture_storage_3d", "u32",
   "vec2", "vec3", "vec4",
   "alias", "bitcast", "break", "case", "const", "continue", "continuing", "default",
   "discard", "else", "enable", "false", "fn", "for", "if", "let", "loop", "return",
   "struct", "switch", "true", "type", "var", "while"]

/-- Modelled from the spec: the `wgslBuiltins` set lives in `wgsl-tokens.ts`,
which is not among the repository's available source files. The spec (§4.4.1)
describes builtins as vector/matrix/texture type names and scalar types, all of
which already occur in the keyword set that the tokenizer consults first, so
the extra set is modelled as empty; it only affects the `builtin` tag of
identifiers that are in neither list used by the claims. -/
def wgslBuiltins : List String := []

/-- Length matched by `^\s+`. -/
def wsLen (s : List Char) : Option Nat :=
  let n := (s.takeWhile isJsSpace).length
  if n == 0 then none else some n

/-- Length matched by `^\/\/.*|^\/\*[\s\S]*?\*\/` (line comment to the end of
line, or lazy block comment through the first `*/`). -/
def commentLen (s : List Char) : Option Nat :=
  match s with
  | '/' :: '/' :: rest =>
    some (2 + (rest.takeWhile (fun c => !(c == '\n' || c == '\r'))).length)
  | '/' :: '*' :: rest => (findSub ['*', '/'] rest).map (fun i => 4 + i)
  | _ => none

/-- Length matched by `^#(\w+)\s+"([^"]+)"`. -/
def directiveLen (s : List Char) : Option Nat :=
  match s with
  | '#' :: rest =>
    let w := (rest.takeWhile isWordChar).length
    if w == 0 then none else
    let r1 := rest.drop w
    let sp := (r1.takeWhile isJsSpace).length
    if sp == 0 then none else
    match r1.drop sp with
    | '"' :: r2 =>
      let nm := (r2.takeWhile (fun c => !(c == '"'))).length
      if nm == 0 then none else
      match r2.drop nm with
      | '"' :: _ => some (1 + w + sp + 1 + nm + 1)
      | _ => none
    | _ => none
  | _ => none

/-- Length matched by `^"[^"]*"`. -/
def stringLen (s : List Char) : Option Nat :=
  match s with
  | '"' :: rest =>
    let n := (rest.takeWhile (fun c => !(c == '"'))).length
    match rest.drop n with
    | '"' :: _ => some (n + 2)
    | _ => none
  | _ => none

/-- Length matched by the number regex
`^(?:0[xX][0-9a-fA-F]+[uif]?|[0-9]+(\.[0-9]*)?[uif]?|[0-9]*\.[0-9]+[f]?)`,
trying the alternatives in order as a JS regex does. -/
def numberLen (s : List Char) : Option Nat :=
  let hexAlt : Option Nat :=
    match s with
    | '0' :: x :: rest =>
      if x == 'x' || x == 'X' then
        let h := (rest.takeWhile (fun c => c.isDigit ||
          ('a' ≤ c && c ≤ 'f') || ('A' ≤ c && c ≤ 'F'))).length
        if h == 0 then none else
        match rest.drop h with
        | c :: _ => if c == 'u' || c == 'i' || c == 'f' then some (2 + h + 1) else some (2 + h)
        | [] => some (2 + h)
      else none
    | _ => none
  match hexAlt with
  | some n => some n
  | none =>
    let d := (s.takeWhile Char.isDigit).length
    if d != 0 then
      let r1 := s.drop d
      let frac : Nat :=
        match r1 with
        | '.' :: r2 => 1 + (r2.takeWhile Char.isDigit).length
        | _ => 0
      let r3 := r1.drop frac
      match r3 with
      | c :: _ => if c == 'u' || c == 'i' || c == 'f' then some (d + frac + 1) else some (d + frac)
      | [] => some (d + frac)
    else
      match s with
      | '.' :: r2 =>
        let f := (r2.takeWhile Char.isDigit).length
        if f == 0 then none else
        match r2.drop f with
        | c :: _ => if c == 'f' then some (1 + f + 1) else some (1 + f)
        | [] => some (1 + f)
      | _ => none

/-- Length matched by `^[a-zA-Z_][a-zA-Z0-9_]*`. -/
def identLen (s : List Char) : Option Nat :=
  match s with
  | c :: rest => if isIdentStartChar c then some (1 + (rest.takeWhile isWordChar).length) else none
  | [] => none

/-- Length of the parenthesised part of an attribute after its opening `(`:
the tail of the regex `\((?:[^()]+|\([^()]*\))*\)`, including the closing
paren. The fuel is instantiated with the input length, which suffices since
every step consumes at least one character. -/
def attrGroupChunks : Nat → List Char → Option Nat
  | 0, _ => none
  | _ + 1, [] => none
  | fuel + 1, c :: rest =>
    if c == ')' then some 1
    else if c == '(' then
      let k := (rest.takeWhile (fun d => !(d == '(' || d == ')'))).length
      match rest.drop k with
      | ')' :: rest2 => (attrGroupChunks fuel rest2).map (fun m => 1 + k + 1 + m)
      | _ => none
    else
      let k := 1 + (rest.takeWhile (fun d => !(d == '(' || d == ')'))).length
      (attrGroupChunks fuel ((c :: rest).drop k)).map (fun m => k + m)

/-- Length matched by `^@(?:[a-zA-Z_][a-zA-Z0-9_]*)(?:\((?:[^()]+|\([^()]*\))*\))?`. -/
def attributeLen (s : List Char) : Option Nat :=
  match s with
  | '@' :: rest =>
    match identLen rest with
    | some n =>
      let base := 1 + n
      match rest.drop n with
      | '(' :: r2 =>
        match attrGroupChunks (r2.length + 1) r2 with
        | some g => some (base + 1 + g)
        | none => some base
      | _ => some base
    | none => none
  | _ => none

/-- The multi-character operator alternatives of the operator regex, in the
order the regex lists them. -/
def multiOps : List (List Char) :=
  ["<<=", ">>=", "+=", "-=", "*=", "/=", "%=", "&=", "|=", "^=",
   "<<", ">>", "<=", ">=", "==", "!=", "&&", "||", "->"].map String.data

/-- The single-character operator class `[-+*/%&|^~!<>=(){}[\],;:.@]`. -/
def singleOps : List Char := "-+*/%&|^~!<>=(){}[],;:.@".data

/-- Length matched by the operator regex (first matching alternative wins). -/
def operatorLen (s : List Char) : Option Nat :=
  match multiOps.find? (fun op => op.isPrefixOf s) with
  | some op => some op.length
  | none =>
    match s with
    | c :: _ => if singleOps.contains c then some 1 else none
    | [] => none

/-- One step of the tokenizer loop: which matcher fires at the head of `s`
(in the priority order of the source) and what it produces — `none` for the
skipped whitespace/comment matches, a token otherwise — together with how many
characters it consumes. `none` overall means the fatal unexpected-character
case. -/
def scanStep (s : List Char) : Option (Option Token × Nat) :=
  match wsLen s with
  | some n => some (none, n)
  | none =>
  match commentLen s with
  | some n => some (none, n)
  | none =>
  match directiveLen s with
  | some n => some (some ⟨"directive", ⟨s.take n⟩⟩, n)
  | none =>
  match stringLen s with
  | some n => some (some ⟨"string", ⟨s.take n⟩⟩, n)
  | none =>
  match numberLen s with
  | some n => some (some ⟨"number", ⟨s.take n⟩⟩, n)
  | none =>
  match attributeLen s with
  | some n => some (some ⟨"attribute", ⟨s.take n⟩⟩, n)
  | none =>
  match identLen s with
  | some n =>
    let v : String := ⟨s.take n⟩
    let t := if wgslKeywords.contains v then "keyword"
             else if wgslBuiltins.contains v then "builtin" else "identifier"
    some (some ⟨t, v⟩, n)
  | none =>
  match operatorLen s with
  | some n => some (some ⟨"operator", ⟨s.take n⟩⟩, n)
  | none => none

/-- The tokenizer loop of `tokenizeWgsl`: `pos` is the current index, reported
in the error. The fuel is instantiated with `length + 1`, which suffices since
every step consumes at least one character. -/
def tokenizeAux : Nat → Nat → List Char → Except LexError (List Token)
  | 0, pos, s =>
    match s with
    | [] => .ok []
    | c :: _ => .error ⟨pos, c⟩
  | fuel + 1, pos, s =>
    match s with
    | [] => .ok []
    | c :: rest =>
      match scanStep (c :: rest) with
      | none => .error ⟨pos, c⟩
      | some (tk, n) =>
        match tokenizeAux fuel (pos + n) ((c :: rest).drop n) with
        | .error e => .error e
        | .ok toks => .ok (match tk with | some t => t :: toks | none => toks)

/-- `tokenizeWgsl` of src/tokenizeWgsl.ts: the whole-input tokenizer. -/
def tokenizeWgsl (code : String) : Except LexError (List Token) :=
  tokenizeAux (code.data.length + 1) 0 code.data

/-! ## Macro table (types.d.ts) and JS `Map` semantics

A JS `Map` keeps insertion order, `set` overwrites in place, `get` returns the
unique entry; it is modelled as an association list with unique keys. -/

/-- The `Macro` type of types.d.ts: replacement text, and the parameter list
when function-like. -/
structure Macro where
  value : String
  params : Option (List String) := none
deriving DecidableEq, Repr

/-- JS `Map.prototype.get` on an insertion-ordered association list. -/
def alistGet {α : Type} (m : List (String × α)) (k : String) : Option α :=
  (m.find? (fun p => p.1 == k)).map (·.2)

/-- JS `Map.prototype.has`. -/
def alistHas {α : Type} (m : List (String × α)) (k : String) : Bool :=
  (alistGet m k).isSome

/-- JS `Map.prototype.set`: overwrite in place when the key exists, append
otherwise. -/
def alistSet {α : Type} : List (String × α) → String → α → List (String × α)
  | [], k, v => [(k, v)]
  | (k0, v0) :: rest, k, v =>
    if k0 == k then (k0, v) :: rest else (k0, v0) :: alistSet rest k v

/-- JS `Map.prototype.delete` (dropping the entry for the key). -/
def alistDelete {α : Type} (m : List (String × α)) (k : String) : List (String × α) :=
  m.filter (fun p => p.1 != k)

/-- The macro table passed around the preprocessor (`Map<string, Macro>`). -/
abbrev Defines := List (String × Macro)

/-! ## Macro expander (src/tools/preprocessing/macro-expander.ts) -/

/-- The opaque placeholder `###STRING_LITERAL_${i}###` substituted for the
i-th protected string literal. -/
def placeholder (i : Nat) : List Char := ("###STRING_LITERAL_" ++ toString i ++ "###").data

/-- State of the character scan that protects string literals: inside-string
flag, the opening quote character, pending backslash escape, the literal
accumulated so far, the protected line built so far, and the literals
collected so far. -/
structure ProtectSt where
  inString : Bool
  stringChar : Char
  escaped : Bool
  currentString : List Char
  protectedAcc : List Char
  literals : List (List Char)

/-- The character-by-character string-protection scan of `expandMacros`
(tracking single/double quotes and backslash escapes). -/
def protectGo : List Char → ProtectSt → ProtectSt
  | [], st => st
  | c :: rest, st =>
    if st.escaped then
      if st.inString then
        protectGo rest { st with currentString := st.currentString ++ [c], escaped := false }
      else
        protectGo rest { st with protectedAcc := st.protectedAcc ++ [c], escaped := false }
    else if c == '\\' then
      if st.inString then
        protectGo rest { st with currentString := st.currentString ++ [c], escaped := true }
      else
        protectGo rest { st with protectedAcc := st.protectedAcc ++ [c], escaped := true }
    else if (c == '"' || c == '\'') && (!st.inString || c == st.stringChar) then
      if st.inString then
        protectGo rest { st with
          currentString := [],
          inString := false,
          literals := st.literals ++ [st.currentString ++ [c]],
          protectedAcc := st.protectedAcc ++ placeholder st.literals.length }
      else
        protectGo rest { st with inString := true, stringChar := c, currentString := [c] }
    else if st.inString then
      protectGo rest { st with currentString := st.currentString ++ [c] }
    else
      protectGo rest { st with protectedAcc := st.protectedAcc ++ [c] }

/-- Protect the string literals of a line: the protected line (literals
replaced by placeholders) and the collected literals, including the
unclosed-string fallback of the source. -/
def protectLine (line : List Char) : List Char × List (List Char) :=
  let st := protectGo line ⟨false, ' ', false, [], [], []⟩
  if st.inString then
    (st.protectedAcc ++ placeholder st.literals.length, st.literals ++ [st.currentString])
  else (st.protectedAcc, st.literals)

/-- Restore the protected literals: for each index in order,
`result.replace(placeholderString, literal)` — a string replacement, so the
literal text is expanded through `GetSubstitution` (a literal containing `$&`,
`$$`, or a dollar followed by a backquote or a single quote is not restored
verbatim). -/
def restoreLiterals (lits : List (List Char)) (s : List Char) : List Char :=
  lits.enum.foldl (fun acc p => replaceFirstSubJs (placeholder p.1) p.2 acc) s

/-- The test `^\s*${name}\s+is\s+defined\s*(//.*)?$` of the expander
(the stricter variant without the trailing comment is subsumed by it, and the
source tests both with an or). -/
def isDefinedIdiom (name s : List Char) : Bool :=
  let s1 := s.dropWhile isJsSpace
  if name.isPrefixOf s1 then
    let s2 := s1.drop name.length
    let w1 := (s2.takeWhile isJsSpace).length
    if w1 == 0 then false else
    let s3 := s2.drop w1
    if ['i', 's'].isPrefixOf s3 then
      let s4 := s3.drop 2
      let w2 := (s4.takeWhile isJsSpace).length
      if w2 == 0 then false else
      let s5 := s4.drop w2
      if ['d', 'e', 'f', 'i', 'n', 'e', 'd'].isPrefixOf s5 then
        let s6 := (s5.drop 7).dropWhile isJsSpace
        s6.isEmpty || ['/', '/'].isPrefixOf s6
      else false
    else false
  else false

/-- Whether the character after a would-be match of `name` at the head of `s`
satisfies the trailing word boundary `\b` (macro names end in a word
character). -/
def boundaryAfterOk (name s : List Char) : Bool :=
  match s.drop name.length with
  | [] => true
  | d :: _ => !isWordChar d

/-- The global replace `result.replace(new RegExp(`\b${name}\b`, "g"), value)`:
the source interpolates the raw name into the regex source, and for an
identifier-shaped `name` — the only shape the `#define` parsers produce — the
interpolation matches the name as literal text between word boundaries, which
is what this models (a name containing regex metacharacters is outside the
model, and every theorem quantifying over tables restricts names to
identifiers). The scan goes left to right; `prevW` records whether the
character before the current position is a word character (the leading `\b`).
Returns the rewritten text and whether any match occurred (the `changed` flag
is set by the replacement callback exactly when a match is found; the
replacement is produced by a callback, so no `GetSubstitution` applies to the
value). Fuel is instantiated with `length + 1`. -/
def replaceWordGo (name v : List Char) : Nat → Bool → List Char → List Char × Bool
  | 0, _, s => (s, false)
  | fuel + 1, prevW, s =>
    match s with
    | [] => ([], false)
    | c :: rest =>
      if !prevW && !name.isEmpty && name.isPrefixOf (c :: rest) &&
          boundaryAfterOk name (c :: rest) then
        let p := replaceWordGo name v fuel true ((c :: rest).drop name.length)
        (v ++ p.1, true)
      else
        let p := replaceWordGo name v fuel (isWordChar c) rest
        (c :: p.1, p.2)

/-- Trailing boundary `(?![A-Za-z0-9_])` of the single-letter macro regex. -/
def singleBoundary (s : List Char) : Bool :=
  match s with
  | [] => true
  | d :: _ => !isWordChar d

/-- The prefix class `[^A-Za-z0-9_]|[0-9]` of the single-letter macro regex:
any character that is not a letter or underscore (digits are allowed). -/
def singlePrefixOk (c : Char) : Bool := !(c.isAlpha || c == '_')

/-- The global replace with the single-letter macro regex
`(^|[^A-Za-z0-9_]|[0-9])(${name})(?![A-Za-z0-9_])`: the `^` alternative
applies only at position 0 (`atStart`), otherwise a prefix character is
consumed as part of the match and emitted unchanged. Returns the rewritten
text and whether any match occurred. -/
def singleLetterGo (letter : Char) (v : List Char) : Nat → Bool → List Char →
    List Char × Bool
  | 0, _, s => (s, false)
  | _ + 1, _, [] => ([], false)
  | fuel + 1, atStart, c :: rest =>
    if atStart && c == letter && singleBoundary rest then
      let p := singleLetterGo letter v fuel false rest
      (v ++ p.1, true)
    else
      match rest with
      | d :: rest2 =>
        if singlePrefixOk c && d == letter && singleBoundary rest2 then
          let p := singleLetterGo letter v fuel false rest2
          (c :: (v ++ p.1), true)
        else
          let p := singleLetterGo letter v fuel false (d :: rest2)
          (c :: p.1, p.2)
      | [] => ([c], false)

/-- The paren-balanced argument scan of a function-like macro invocation,
starting just after the opening paren at depth 1: splits on top-level commas,
trims each argument, and applies the final-argument push condition
`currentArg.trim() || args.length > 0 || params.length === 1` of the source.
Returns the argument list and the number of characters consumed (through the
closing paren, or the whole rest when unbalanced). -/
def parseArgsGo (paramsLen : Nat) : List Char → Nat → List Char → List (List Char) →
    List (List Char) × Nat
  | [], _, _, args => (args, 0)
  | c :: rest, depth, cur, args =>
    if c == '(' then
      let p := parseArgsGo paramsLen rest (depth + 1) (cur ++ [c]) args
      (p.1, p.2 + 1)
    else if c == ')' then
      if depth == 1 then
        let args2 := if !(jsTrimList cur).isEmpty || !args.isEmpty || paramsLen == 1
                     then args ++ [jsTrimList cur] else args
        (args2, 1)
      else
        let p := parseArgsGo paramsLen rest (depth - 1) (cur ++ [c]) args
        (p.1, p.2 + 1)
    else if c == ',' && depth == 1 then
      let p := parseArgsGo paramsLen rest 1 [] (args ++ [jsTrimList cur])
      (p.1, p.2 + 1)
    else
      let p := parseArgsGo paramsLen rest depth (cur ++ [c]) args
      (p.1, p.2 + 1)

/-- The arity error message
`Macro ${name} expects ${params.length} arguments, got ${args.length}`. -/
def arityMessage (name : String) (k j : Nat) : String :=
  "Macro " ++ name ++ " expects " ++ toString k ++ " arguments, got " ++ toString j

/-- Substitute each parameter occurrence (word-boundary matched) in the macro
body by the corresponding unexpanded argument text. -/
def substParams : List String → List (List Char) → List Char → List Char
  | [], _, expansion => expansion
  | _ :: _, [], expansion => expansion
  | p :: ps, a :: rest, expansion =>
    substParams ps rest (replaceWordGo p.data a (expansion.length + 1) false expansion).1

/-- Handling of one matched function-like invocation: the arity check (throwing
the arity error) followed by parameter substitution. -/
def fnInvocationStep (name : String) (params : List String) (value : String)
    (args : List (List Char)) : Except String (List Char) :=
  if args.length == params.length then .ok (substParams params args value.data)
  else .error (arityMessage name params.length args.length)

/-- Whether `\s*\(` follows a would-be match of `name` at the head of `s`
(the tail of the function-like invocation regex `\b${name}\s*\(`). -/
def fnCallAfterOk (name s : List Char) : Bool :=
  match (s.drop name.length).dropWhile isJsSpace with
  | '(' :: _ => true
  | _ => false

/-- One scan of the function-like macro substitution loop: finds every
invocation `\b${name}\s*\(` left to right (the raw name is interpolated into
the regex source; as in `replaceWordGo` this models the identifier-shaped
names the `#define` parsers produce, for which the interpolation is literal
text), parses its arguments, checks arity (propagating the thrown error),
substitutes, and continues after the closing paren. Returns the rewritten text
and the `functionMacroChanged` flag. Fuel is instantiated with
`length + 1`. -/
def fnPassGo (name : String) (params : List String) (value : String) :
    Nat → Bool → List Char → Except String (List Char × Bool)
  | 0, _, s => .ok (s, false)
  | fuel + 1, prevW, s =>
    match s with
    | [] => .ok ([], false)
    | c :: rest =>
      if !prevW && !name.data.isEmpty && name.data.isPrefixOf (c :: rest) &&
          fnCallAfterOk name.data (c :: rest) then
        let afterName := (c :: rest).drop name.data.length
        let ws := (afterName.takeWhile isJsSpace).length
        let afterParen := afterName.drop (ws + 1)
        let pa := parseArgsGo params.length afterParen 1 [] []
        match fnInvocationStep name params value pa.1 with
        | .error e => .error e
        | .ok expansion =>
          match fnPassGo name params value fuel false (afterParen.drop pa.2) with
          | .error e => .error e
          | .ok q => .ok (expansion ++ q.1, true)
      else
        match fnPassGo name params value fuel (isWordChar c) rest with
        | .error e => .error e
        | .ok q => .ok (c :: q.1, q.2)

/-- Stable insertion of a macro entry into a list sorted by descending name
length (the JS stable `sort((a, b) => b[0].length - a[0].length)`). -/
def insertByLen (e : String × Macro) : List (String × Macro) → List (String × Macro)
  | [] => [e]
  | h :: t => if e.1.length ≤ h.1.length then h :: insertByLen e t else e :: h :: t

/-- The `sortedMacros` list: entries in insertion order, stably sorted longest
name first. -/
def sortMacrosDesc (d : Defines) : List (String × Macro) :=
  d.foldl (fun acc e => insertByLen e acc) []

/-- One pass of the `for (const [name, macro] of sortedMacros)` loop of
`expandMacros`: object-like macros are skipped on the `is defined` idiom,
replaced by the single-letter or the standard word-boundary rule (the standard
rule breaks out of the pass when the text changed); function-like macros run
the invocation scan and break on change. The second component is the `changed`
flag accumulated for the enclosing while loop. -/
def macroPass : List (String × Macro) → List Char → Bool → Except String (List Char × Bool)
  | [], result, changed => .ok (result, changed)
  | (name, m) :: rest, result, changed =>
    match m.params with
    | none =>
      if isDefinedIdiom name.data result then macroPass rest result changed
      else if name.data.length == 1 && (name.data.headD ' ').isAlpha then
        let p := singleLetterGo (name.data.headD ' ') m.value.data (result.length + 1) true result
        macroPass rest p.1 (changed || p.2)
      else
        let p := replaceWordGo name.data m.value.data (result.length + 1) false result
        if p.1 != result then .ok (p.1, true)
        else macroPass rest result (changed || p.2)
    | some params =>
      match fnPassGo name params m.value (result.length + 1) false result with
      | .error e => .error e
      | .ok p =>
        if p.2 then .ok (p.1, true)
        else macroPass rest result changed

/-- The iteration cap `MAX_ITERATIONS` of the expansion fixpoint loop. -/
def MAX_ITERATIONS : Nat := 100

/-- The `while (changed && iterationCount < MAX_ITERATIONS)` fixpoint loop:
rerun the macro pass while it reports a change, up to the iteration cap (at
which the source surfaces a console warning and returns the partial text). -/
def expandLoop (sorted : List (String × Macro)) : Nat → List Char → Except String (List Char)
  | 0, result => .ok result
  | fuel + 1, result =>
    match macroPass sorted result false with
    | .error e => .error e
    | .ok p => if p.2 then expandLoop sorted fuel p.1 else .ok p.1

/-- `expandMacros` of macro-expander.ts: protect string literals, run the
bounded fixpoint substitution loop over the macros sorted longest-name-first,
and restore the literals. Arity errors thrown inside the loop propagate. -/
def expandMacros (line : String) (defines : Defines) : Except String String :=
  let pr := protectLine line.data
  let sorted := sortMacrosDesc defines
  match expandLoop sorted MAX_ITERATIONS pr.1 with
  | .error e => .error e
  | .ok result => .ok ⟨restoreLiterals pr.2 result⟩

/-! ## Expression evaluator (src/tools/preprocessing/evaluator.ts) -/

/-- Attempt of the regex `defined\s*\(\s*([a-zA-Z_][a-zA-Z0-9_]*)\s*\)` at the
head of `s`: the parsed name and the number of characters consumed (the regex
is not word-anchored, matching the literal text `defined` anywhere). -/
def matchDefinedCall (s : List Char) : Option (String × Nat) :=
  if "defined".data.isPrefixOf s then
    let r1 := s.drop 7
    let w1 := (r1.takeWhile isJsSpace).length
    match r1.drop w1 with
    | '(' :: r2 =>
      let w2 := (r2.takeWhile isJsSpace).length
      let r3 := r2.drop w2
      match r3 with
      | c0 :: r3t =>
        if isIdentStartChar c0 then
          let idn := 1 + (r3t.takeWhile isWordChar).length
          let r4 := r3.drop idn
          let w3 := (r4.takeWhile isJsSpace).length
          match r4.drop w3 with
          | ')' :: _ => some (⟨r3.take idn⟩, 7 + w1 + 1 + w2 + idn + w3 + 1)
          | _ => none
        else none
      | [] => none
    | _ => none
  else none

/-- The global replace of `defined(name)` by `1`/`0` according to table
membership. Fuel is instantiated with `length + 1`. -/
def definedReplaceGo (d : Defines) : Nat → List Char → List Char
  | 0, s => s
  | fuel + 1, s =>
    match s with
    | [] => []
    | c :: rest =>
      match matchDefinedCall (c :: rest) with
      | some (name, consumed) =>
        (if alistHas d name then ['1'] else ['0']) ++
          definedReplaceGo d fuel ((c :: rest).drop consumed)
      | none => c :: definedReplaceGo d fuel rest

/-- Whether a string is a bare identifier (`^[a-zA-Z_][a-zA-Z0-9_]*$`), as
tested when collecting macros that expand to identifiers. -/
def isIdentString (v : String) : Bool :=
  match v.data with
  | c :: rest => isIdentStartChar c && rest.all isWordChar
  | [] => false

/-- The `macroValueToName` map built by the evaluator (macros whose value is a
bare identifier, value mapped to name). The source computes it but never reads
it; it is kept for fidelity. -/
def macroValueToName (d : Defines) : List (String × String) :=
  d.foldl (fun acc p =>
    if p.2.params.isNone && p.2.value != "" && isIdentString p.2.value then
      alistSet acc p.2.value p.1
    else acc) []

/-- Attempt of the equality regex `\b([a-zA-Z_]\w*)\s*==\s*([a-zA-Z_]\w*)\b`
at the head of `s` (the leading boundary is checked by the caller): the
matched text, the two identifiers, and the match length. -/
def eqMatchAt (s : List Char) : Option (List Char × String × String × Nat) :=
  match s with
  | c0 :: rest =>
    if isIdentStartChar c0 then
      let ln := 1 + (rest.takeWhile isWordChar).length
      let r1 := s.drop ln
      let w1 := (r1.takeWhile isJsSpace).length
      match r1.drop w1 with
      | '=' :: '=' :: r2 =>
        let w2 := (r2.takeWhile isJsSpace).length
        let r3 := r2.drop w2
        match r3 with
        | c1 :: r3t =>
          if isIdentStartChar c1 then
            let rn := 1 + (r3t.takeWhile isWordChar).length
            let len := ln + w1 + 2 + w2 + rn
            some (s.take len, ⟨s.take ln⟩, ⟨r3.take rn⟩, len)
          else none
        | [] => none
      | _ => none
    else none
  | [] => none

/-- Scan for the next equality-regex match in the suffix of the expression
starting at absolute position `pos`; `prevW` is the word-ness of the previous
character (for the leading `\b`). Returns the matched text, the identifiers,
and the absolute match end. -/
def eqScan (prevW : Bool) (pos : Nat) : List Char → Option (List Char × String × String × Nat)
  | [] => none
  | c :: rest =>
    if !prevW && isIdentStartChar c then
      match eqMatchAt (c :: rest) with
      | some (txt, l, r, len) => some (txt, l, r, pos + len)
      | none => eqScan (isWordChar c) (pos + 1) rest
    else eqScan (isWordChar c) (pos + 1) rest

/-- Case analysis of the equality special case: replace `left == right` by `1`
when one side is an object-like macro whose value is the other (undefined)
side's name, or both sides are object-like macros with equal values. -/
def eqReplaceDecision (d : Defines) (left right : String) : Bool :=
  match alistGet d left, alistGet d right with
  | some lm, none => lm.params.isNone && lm.value == right
  | none, some rm => rm.params.isNone && rm.value == left
  | some lm, some rm => lm.params.isNone && rm.params.isNone && lm.value == rm.value
  | none, none => false

/-- The `while ((match = equalityRegex.exec(expr)) !== null)` loop with its JS
`lastIndex` semantics: the regex's `lastIndex` survives the reassignment of
`expr`, and the replacement substitutes the first occurrence of the matched
text in the whole string. Fuel is instantiated with `length + 1`. -/
def eqLoopGo (d : Defines) : Nat → List Char → Nat → List Char
  | 0, expr, _ => expr
  | fuel + 1, expr, lastIndex =>
    let prevW := match expr.get? (lastIndex - 1) with
      | some c => lastIndex != 0 && isWordChar c
      | none => false
    match eqScan prevW lastIndex (expr.drop lastIndex) with
    | none => expr
    | some (txt, l, r, matchEnd) =>
      let expr2 := if eqReplaceDecision d l r then replaceFirstSub txt ['1'] expr else expr
      eqLoopGo d fuel expr2 matchEnd

/-- The global replace of every remaining `\b([a-zA-Z_]\w*)\b` by the macro's
value (`"0"` for an empty value, an undefined identifier, or a function-like
macro). Fuel is instantiated with `length + 1`. -/
def identReplaceGo (d : Defines) : Nat → Bool → List Char → List Char
  | 0, _, s => s
  | fuel + 1, prevW, s =>
    match s with
    | [] => []
    | c :: rest =>
      if !prevW && isIdentStartChar c then
        let n := 1 + (rest.takeWhile isWordChar).length
        let name : String := ⟨s.take n⟩
        let rep : String :=
          match alistGet d name with
          | some m => if m.params.isNone then (if m.value == "" then "0" else m.value) else "0"
          | none => "0"
        rep.data ++ identReplaceGo d fuel true (s.drop n)
      else c :: identReplaceGo d fuel (isWordChar c) rest

/-- The operator translation `(\s*)(!=|==|&&|\|\||!)(\s*)` (whitespace groups
are preserved verbatim, so the scan is equivalent to rewriting the operators
alone, first alternative first). -/
def opTranslateGo : List Char → List Char
  | [] => []
  | '!' :: '=' :: rest => '!' :: '=' :: '=' :: opTranslateGo rest
  | '=' :: '=' :: rest => '=' :: '=' :: '=' :: opTranslateGo rest
  | '&' :: '&' :: rest => '&' :: '&' :: opTranslateGo rest
  | '|' :: '|' :: rest => '|' :: '|' :: opTranslateGo rest
  | '!' :: rest => '!' :: opTranslateGo rest
  | c :: rest => c :: opTranslateGo rest

/-- The standalone-number test `^\s*\d+\s*$`. -/
def isStandaloneNumber (s : List Char) : Bool :=
  let t := s.dropWhile isJsSpace
  let d := t.takeWhile Char.isDigit
  !d.isEmpty && (t.drop d.length).all isJsSpace

/-- Modelled from the spec: the final `eval(expr)` call hands the rewritten
expression to the host language. Per §4.3 the expression is evaluated with
standard operator precedence and short-circuit semantics over integers and
booleans; this value type carries both. Fractional results and other host
coercions are outside the integer model. -/
inductive JsVal
  | num (n : Int)
  | isTrue
  | isFalse
deriving DecidableEq, Repr

/-- JS truthiness of a value. -/
def truthy : JsVal → Bool
  | .num n => n != 0
  | .isTrue => true
  | .isFalse => false

/-- Boolean as a `JsVal`. -/
def JsVal.ofBool (b : Bool) : JsVal := if b then .isTrue else .isFalse

/-- Strict equality `===` on the modelled values. -/
def jsStrictEq : JsVal → JsVal → Bool
  | .num a, .num b => a == b
  | .isTrue, .isTrue => true
  | .isFalse, .isFalse => true
  | _, _ => false

mutual

/-- Modelled from the spec (host `eval`): `||` level, returning the first
truthy operand's value as JS does. -/
def parseOrE : Nat → List Char → Option (JsVal × List Char)
  | 0, _ => none
  | fuel + 1, s =>
    match parseAndE fuel s with
    | some (v, r) => parseOrTail fuel v r
    | none => none

/-- Modelled from the spec (host `eval`): trailing `|| ...` operands. -/
def parseOrTail : Nat → JsVal → List Char → Option (JsVal × List Char)
  | 0, _, _ => none
  | fuel + 1, acc, s =>
    let t := s.dropWhile isJsSpace
    if ['|', '|'].isPrefixOf t then
      match parseAndE fuel (t.drop 2) with
      | some (v, r) => parseOrTail fuel (if truthy acc then acc else v) r
      | none => none
    else some (acc, s)

/-- Modelled from the spec (host `eval`): `&&` level. -/
def parseAndE : Nat → List Char → Option (JsVal × List Char)
  | 0, _ => none
  | fuel + 1, s =>
    match parseEqE fuel s with
    | some (v, r) => parseAndTail fuel v r
    | none => none

/-- Modelled from the spec (host `eval`): trailing `&& ...` operands. -/
def parseAndTail : Nat → JsVal → List Char → Option (JsVal × List Char)
  | 0, _, _ => none
  | fuel + 1, acc, s =>
    let t := s.dropWhile isJsSpace
    if ['&', '&'].isPrefixOf t then
      match parseEqE fuel (t.drop 2) with
      | some (v, r) => parseAndTail fuel (if truthy acc then v else acc) r
      | none => none
    else some (acc, s)

/-- Modelled from the spec (host `eval`): equality level (`===`, `!==`, and
the loose forms, longest operator first). -/
def parseEqE : Nat → List Char → Option (JsVal × List Char)
  | 0, _ => none
  | fuel + 1, s =>
    match parseRelE fuel s with
    | some (v, r) => parseEqTail fuel v r
    | none => none

/-- Modelled from the spec (host `eval`): trailing equality operands. -/
def parseEqTail : Nat → JsVal → List Char → Option (JsVal × List Char)
  | 0, _, _ => none
  | fuel + 1, acc, s =>
    let t := s.dropWhile isJsSpace
    if ['=', '=', '='].isPrefixOf t then
      match parseRelE fuel (t.drop 3) with
      | some (v, r) => parseEqTail fuel (JsVal.ofBool (jsStrictEq acc v)) r
      | none => none
    else if ['!', '=', '='].isPrefixOf t then
      match parseRelE fuel (t.drop 3) with
      | some (v, r) => parseEqTail fuel (JsVal.ofBool (!jsStrictEq acc v)) r
      | none => none
    else if ['=', '='].isPrefixOf t then
      match parseRelE fuel (t.drop 2) with
      | some (v, r) => parseEqTail fuel (JsVal.ofBool (jsStrictEq acc v)) r
      | none => none
    else if ['!', '='].isPrefixOf t then
      match parseRelE fuel (t.drop 2) with
      | some (v, r) => parseEqTail fuel (JsVal.ofBool (!jsStrictEq acc v)) r
      | none => none
    else some (acc, s)

/-- Modelled from the spec (host `eval`): relational level over integers. -/
def parseRelE : Nat → List Char → Option (JsVal × List Char)
  | 0, _ => none
  | fuel + 1, s =>
    match parseAddE fuel s with
    | some (v, r) => parseRelTail fuel v r
    | none => none

/-- Modelled from the spec (host `eval`): trailing relational operands. -/
def parseRelTail : Nat → JsVal → List Char → Option (JsVal × List Char)
  | 0, _, _ => none
  | fuel + 1, acc, s =>
    let t := s.dropWhile isJsSpace
    let step := fun (op : List Char) (f : Int → Int → Bool) =>
      match parseAddE fuel (t.drop op.length) with
      | some (v, r) =>
        match acc, v with
        | .num a, .num b => parseRelTail fuel (JsVal.ofBool (f a b)) r
        | _, _ => none
      | none => none
    if ['<', '='].isPrefixOf t then step ['<', '='] (· ≤ ·)
    else if ['>', '='].isPrefixOf t then step ['>', '='] (· ≥ ·)
    else if ['<'].isPrefixOf t && !(['<', '<'].isPrefixOf t) then step ['<'] (· < ·)
    else if ['>'].isPrefixOf t && !(['>', '>'].isPrefixOf t) then step ['>'] (· > ·)
    else some (acc, s)

/-- Modelled from the spec (host `eval`): additive level over integers. -/
def parseAddE : Nat → List Char → Option (JsVal × List Char)
  | 0, _ => none
  | fuel + 1, s =>
    match parseMulE fuel s with
    | some (v, r) => parseAddTail fuel v r
    | none => none

/-- Modelled from the spec (host `eval`): trailing additive operands. -/
def parseAddTail : Nat → JsVal → List Char → Option (JsVal × List Char)
  | 0, _, _ => none
  | fuel + 1, acc, s =>
    let t := s.dropWhile isJsSpace
    let step := fun (opLen : Nat) (f : Int → Int → Int) =>
      match parseMulE fuel (t.drop opLen) with
      | some (v, r) =>
        match acc, v with
        | .num a, .num b => parseAddTail fuel (JsVal.num (f a b)) r
        | _, _ => none
      | none => none
    if ['+'].isPrefixOf t then step 1 (· + ·)
    else if ['-'].isPrefixOf t then step 1 (· - ·)
    else some (acc, s)

/-- Modelled from the spec (host `eval`): multiplicative level over integers
(division only when exact, the fractional case being outside the model). -/
def parseMulE : Nat → List Char → Option (JsVal × List Char)
  | 0, _ => none
  | fuel + 1, s =>
    match parseUnaryE fuel s with
    | some (v, r) => parseMulTail fuel v r
    | none => none

/-- Modelled from the spec (host `eval`): trailing multiplicative operands. -/
def parseMulTail : Nat → JsVal → List Char → Option (JsVal × List Char)
  | 0, _, _ => none
  | fuel + 1, acc, s =>
    let t := s.dropWhile isJsSpace
    if ['*'].isPrefixOf t then
      match parseUnaryE fuel (t.drop 1) with
      | some (v, r) =>
        match acc, v with
        | .num a, .num b => parseMulTail fuel (JsVal.num (a * b)) r
        | _, _ => none
      | none => none
    else if ['/'].isPrefixOf t then
      match parseUnaryE fuel (t.drop 1) with
      | some (v, r) =>
        match acc, v with
        | .num a, .num b => if b != 0 && a % b == 0 then parseMulTail fuel (JsVal.num (a / b)) r else none
        | _, _ => none
      | none => none
    else if ['%'].isPrefixOf t then
      match parseUnaryE fuel (t.drop 1) with
      | some (v, r) =>
        match acc, v with
        | .num a, .num b => if b != 0 then parseMulTail fuel (JsVal.num (Int.tmod a b)) r else none
        | _, _ => none
      | none => none
    else some (acc, s)

/-- Modelled from the spec (host `eval`): unary `!`, `-`, `+` and primaries. -/
def parseUnaryE : Nat → List Char → Option (JsVal × List Char)
  | 0, _ => none
  | fuel + 1, s =>
    let t := s.dropWhile isJsSpace
    match t with
    | '!' :: r =>
      match parseUnaryE fuel r with
      | some (v, rest) => some (JsVal.ofBool (!truthy v), rest)
      | none => none
    | '-' :: r =>
      match parseUnaryE fuel r with
      | some (v, rest) =>
        match v with
        | .num n => some (JsVal.num (-n), rest)
        | _ => none
      | none => none
    | '+' :: r =>
      match parseUnaryE fuel r with
      | some (v, rest) =>
        match v with
        | .num n => some (JsVal.num n, rest)
        | _ => none
      | none => none
    | '(' :: r =>
      match parseOrE fuel r with
      | some (v, rest) =>
        match rest.dropWhile isJsSpace with
        | ')' :: rest2 => some (v, rest2)
        | _ => none
      | none => none
    | _ =>
      if ['t', 'r', 'u', 'e'].isPrefixOf t && singleBoundary (t.drop 4) then
        some (JsVal.isTrue, t.drop 4)
      else if ['f', 'a', 'l', 's', 'e'].isPrefixOf t && singleBoundary (t.drop 5) then
        some (JsVal.isFalse, t.drop 5)
      else
        let ds := t.takeWhile Char.isDigit
        if ds.isEmpty then none
        else some (JsVal.num (natFromDigits ds), t.drop ds.length)

end

/-- Modelled from the spec: the host-language `eval` of the rewritten
expression, `none` when evaluation fails (a syntax error or a case outside the
integer/boolean model). -/
def jsEval (s : List Char) : Option JsVal :=
  match parseOrE (8 * s.length + 16) s with
  | some (v, r) => if (r.dropWhile isJsSpace).isEmpty then some v else none
  | none => none

/-- The rewriting pipeline of `evaluateExpression` before the final
evaluation: `defined()` substitution, the equality special case, bare
identifier substitution, and the operator translation. -/
def rewriteExpr (expr : String) (d : Defines) : List Char :=
  let e1 := definedReplaceGo d (expr.data.length + 1) expr.data
  let e2 := eqLoopGo d (e1.length + 1) e1 0
  let e3 := identReplaceGo d (e2.length + 1) false e2
  opTranslateGo e3

/-- `evaluateExpression` of evaluator.ts: rewrite the expression, take the
standalone-number shortcut when it applies, otherwise hand the text to the
host evaluation, returning `false` when that fails (the fail-safe catch). -/
def evaluateExpression (expr : String) (d : Defines) : Bool :=
  let e := rewriteExpr expr d
  if isStandaloneNumber e then natFromDigits (jsTrimList e) != 0
  else
    match jsEval e with
    | some v => truthy v
    | none => false

/-! ## Conditional-compilation state machine
(src/tools/preprocessing/conditional-processor.ts) -/

/-- The `ConditionalState` of types.d.ts: one frame per open conditional. -/
structure ConditionalState where
  including : Bool
  hasBeenTrue : Bool
  hasElse : Bool
deriving DecidableEq, Repr

/-- The state threaded through `processConditionals`: the conditional stack
(top at the head), the macro table, and the result lines so far. -/
structure PState where
  stack : List ConditionalState
  defines : Defines
  out : List String
deriving DecidableEq, Repr

/-- `isCurrentlyIncluding`: every frame of the stack has `including = true`. -/
def stackIncluding (stack : List ConditionalState) : Bool :=
  stack.all (·.including)

/-- Strip a trailing `//` comment from a directive line and trim (the
`indexOf("//")` preprocessing of the source). -/
def stripLineComment (s : String) : String :=
  match findSub ['/', '/'] s.data with
  | some i => jsTrim ⟨s.data.take i⟩
  | none => s

/-- The test `^kw\s+` (keyword followed by at least one whitespace). -/
def matchKeywordSpace (kw : String) (s : String) : Bool :=
  kw.data.isPrefixOf s.data &&
    (match s.data.drop kw.data.length with
     | c :: _ => isJsSpace c
     | [] => false)

/-- The test `^kw(?:\s|$)`. -/
def matchKeywordEnd (kw : String) (s : String) : Bool :=
  kw.data.isPrefixOf s.data &&
    (match s.data.drop kw.data.length with
     | c :: _ => isJsSpace c
     | [] => true)

/-- The text after `^kw\s+`, trimmed (`directiveLine.substring(match[0].length).trim()`). -/
def afterKeyword (kw : String) (s : String) : String :=
  jsTrim ⟨(s.data.drop kw.data.length).dropWhile isJsSpace⟩

/-- Parse an identifier `[a-zA-Z_][a-zA-Z0-9_]*` at the head of `s`. -/
def parseIdent (s : List Char) : Option (List Char × List Char) :=
  match s with
  | c :: rest =>
    if isIdentStartChar c then
      let n := 1 + (rest.takeWhile isWordChar).length
      some (s.take n, s.drop n)
    else none
  | [] => none

/-- The `(?:\s*,\s*[a-zA-Z_]\w*)*\s*\)` tail of the function-like `#define`
parameter list, after the first parameter. Fuel is instantiated with
`length + 1`. -/
def parseParamsTail : Nat → List String → List Char → Option (List String × List Char)
  | 0, _, _ => none
  | fuel + 1, acc, s =>
    match s.dropWhile isJsSpace with
    | ',' :: r =>
      match parseIdent (r.dropWhile isJsSpace) with
      | some (idn, r2) => parseParamsTail fuel (acc ++ [⟨idn⟩]) r2
      | none => none
    | ')' :: r => some (acc, r)
    | _ => none

/-- The function-like `#define` regex
`^#define\s+([a-zA-Z_]\w*)\s*\(\s*([a-zA-Z_]\w*(?:\s*,\s*[a-zA-Z_]\w*)*)\s*\)\s*(.*)$`:
name, parameter list (already split and trimmed, as `split(",").map(trim)`
yields exactly the parsed identifiers), and the value text. -/
def parseFnLikeDefine (dl : String) : Option (String × List String × String) :=
  let s := dl.data
  if "#define".data.isPrefixOf s then
    let r0 := s.drop 7
    let w := (r0.takeWhile isJsSpace).length
    if w == 0 then none else
    match parseIdent (r0.drop w) with
    | some (name, r1) =>
      match r1.dropWhile isJsSpace with
      | '(' :: r2 =>
        match parseIdent (r2.dropWhile isJsSpace) with
        | some (p1, r3) =>
          match parseParamsTail (r3.length + 1) [⟨p1⟩] r3 with
          | some (ps, r4) => some (⟨name⟩, ps, ⟨r4.dropWhile isJsSpace⟩)
          | none => none
        | none => none
      | _ => none
    | none => none
  else none

/-- The simple-macro name regex `^#define\s+([a-zA-Z_]\w*)`. -/
def parseDefineSimpleName (dl : String) : Option String :=
  let s := dl.data
  if "#define".data.isPrefixOf s then
    let r0 := s.drop 7
    let w := (r0.takeWhile isJsSpace).length
    if w == 0 then none else
    match parseIdent (r0.drop w) with
    | some (name, _) => some ⟨name⟩
    | none => none
  else none

/-- The simple-macro value extraction of the source:
`directiveLine.substring(directiveLine.indexOf(name) + name.length).trim()`
(note the `indexOf`, which finds the first occurrence of the name anywhere in
the line). -/
def defineValueText (dl : String) (name : String) : String :=
  let idx := (findSub name.data dl.data).getD 0
  jsTrim ⟨dl.data.drop (idx + name.data.length)⟩

/-- The `#define` branch of `processConditionals` (taken when currently
including): function-like macros store their unexpanded value; simple macros
store their value expanded once against the current table (`""` stays
unexpanded), propagating an expansion error. -/
def handleDefine (directiveLine : String) (d : Defines) : Except String Defines :=
  match parseFnLikeDefine directiveLine with
  | some (name, params, value) => .ok (alistSet d name ⟨value, some params⟩)
  | none =>
    match parseDefineSimpleName directiveLine with
    | some name =>
      let value := defineValueText directiveLine name
      if value == "" then .ok (alistSet d name ⟨"", none⟩)
      else
        match expandMacros value d with
        | .ok ev => .ok (alistSet d name ⟨ev, none⟩)
        | .error e => .error e
    | none => .ok d

/-- The anchored `^#undef\s+([a-zA-Z_]\w*)$` regex. -/
def parseUndefName (dl : String) : Option String :=
  let s := dl.data
  if "#undef".data.isPrefixOf s then
    let r0 := s.drop 6
    let w := (r0.takeWhile isJsSpace).length
    if w == 0 then none else
    match parseIdent (r0.drop w) with
    | some (name, rest) => if rest.isEmpty then some ⟨name⟩ else none
    | none => none
  else none

/-- The `#undef` branch (silent no-op when the anchored regex fails or the
name is absent). -/
def handleUndef (dl : String) (d : Defines) : Defines :=
  match parseUndefName dl with
  | some name => alistDelete d name
  | none => d

/-- One line of the `processConditionals` loop: directive dispatch in the
source's order, macro expansion and emission for ordinary lines. -/
def processLine (st : PState) (line : String) : Except String PState :=
  let trimmedLine := jsTrim line
  if "#".data.isPrefixOf trimmedLine.data then
    let directiveLine := stripLineComment trimmedLine
    if matchKeywordSpace "#define" directiveLine then
      if stackIncluding st.stack then
        match handleDefine directiveLine st.defines with
        | .ok d2 => .ok { st with defines := d2 }
        | .error e => .error e
      else .ok st
    else if matchKeywordSpace "#undef" directiveLine then
      .ok (if stackIncluding st.stack then
        { st with defines := handleUndef directiveLine st.defines } else st)
    else if matchKeywordSpace "#if" directiveLine then
      let expr := afterKeyword "#if" directiveLine
      let result := if stackIncluding st.stack then evaluateExpression expr st.defines else false
      .ok { st with stack := ⟨result, result, false⟩ :: st.stack }
    else if matchKeywordSpace "#ifdef" directiveLine then
      let name := afterKeyword "#ifdef" directiveLine
      let result := if stackIncluding st.stack then alistHas st.defines name else false
      .ok { st with stack := ⟨result, result, false⟩ :: st.stack }
    else if matchKeywordSpace "#ifndef" directiveLine then
      let name := afterKeyword "#ifndef" directiveLine
      let result := if stackIncluding st.stack then !alistHas st.defines name else false
      .ok { st with stack := ⟨result, result, false⟩ :: st.stack }
    else if matchKeywordSpace "#elif" directiveLine then
      match st.stack with
      | [] => .error "Unexpected #elif without matching #if"
      | cur :: restStack =>
        if cur.hasElse then .error "Unexpected #elif after #else"
        else if !cur.hasBeenTrue then
          let parentIncluding := match restStack with
            | parent :: _ => parent.including
            | [] => true
          if parentIncluding then
            let expr := afterKeyword "#elif" directiveLine
            let result := evaluateExpression expr st.defines
            .ok { st with stack := ⟨result, result, cur.hasElse⟩ :: restStack }
          else .ok { st with stack := ⟨false, cur.hasBeenTrue, cur.hasElse⟩ :: restStack }
        else .ok { st with stack := ⟨false, cur.hasBeenTrue, cur.hasElse⟩ :: restStack }
    else if matchKeywordEnd "#else" directiveLine then
      match st.stack with
      | [] => .error "Unexpected #else without matching #if"
      | cur :: restStack =>
        if cur.hasElse then .error "Multiple #else directives for the same conditional"
        else if !cur.hasBeenTrue then
          let parentIncluding := match restStack with
            | parent :: _ => parent.including
            | [] => true
          .ok { st with stack := ⟨parentIncluding, true, true⟩ :: restStack }
        else .ok { st with stack := ⟨false, cur.hasBeenTrue, true⟩ :: restStack }
    else if matchKeywordEnd "#endif" directiveLine then
      match st.stack with
      | [] => .error "Unexpected #endif without matching #if"
      | _ :: restStack => .ok { st with stack := restStack }
    else
      .ok (if stackIncluding st.stack then { st with out := st.out ++ [line] } else st)
  else
    if stackIncluding st.stack then
      match expandMacros line st.defines with
      | .ok e => .ok { st with out := st.out ++ [e] }
      | .error msg => .error msg
    else .ok st

/-- `processConditionals` of conditional-processor.ts: process every line and
fail on an unmatched open conditional at the end. -/
def processConditionals (lines : List String) (defines : Defines) :
    Except String (List String) :=
  match lines.foldlM processLine ⟨[], defines, []⟩ with
  | .error e => .error e
  | .ok st => if st.stack.isEmpty then .ok st.out else .error "Unmatched #if, #ifdef, or #ifndef"

/-! ## Obfuscator (src/tools/obfuscation/* and src/obfuscation/*) -/

/-- The component letters of swizzles.ts. -/
def swizzleComponents : List String := ["x", "y", "z", "w", "r", "g", "b", "a"]

/-- `generateCombinations` of swizzles.ts, indexed by the remaining length
(`length - prefix.length` of the source recursion). -/
def generateCombinations (components : List String) : Nat → String → List String
  | 0, pre => [pre]
  | n + 1, pre => (components.map (fun comp => generateCombinations components n (pre ++ comp))).flatten

/-- `generateSwizzles`: all combinations of length 1 to 4. -/
def generateSwizzles : List String :=
  ((List.range 4).map (fun i => generateCombinations swizzleComponents (i + 1) "")).flatten

/-- The swizzle set exported by swizzles.ts. -/
def swizzles : List String := generateSwizzles

/-- `isPotentialSwizzle` of collect-struct-names.ts: 1–4 characters, each of
which is (as a one-character string) a member of the swizzle set. -/
def isPotentialSwizzle (name : String) : Bool :=
  if name.length < 1 || name.length > 4 then false
  else name.data.all (fun c => swizzles.contains ⟨[c]⟩)

/-- `nextName` of next-name.ts for a given counter value (`_` followed by the
counter in base 36; the process-wide counter is threaded explicitly). -/
def nextName (i : Nat) : String := "_" ++ base36 i

/-- The inner member scan of `collectStructNames`: from just inside a struct
body, register every identifier followed by `:` that is neither
swizzle-shaped nor already registered, one token at a time, stopping at `}`
(which is left for the outer loop's increment). Returns the map, the counter
and the remaining tokens. -/
def structInnerGo (m : List (String × String)) (ctr : Nat) :
    List Token → List (String × String) × Nat × List Token
  | [] => (m, ctr, [])
  | t :: rest =>
    if t.value == "\x7d" then (m, ctr, t :: rest)
    else
      if t.type == "identifier" &&
          (match rest.head? with | some n => n.value == ":" | none => false) then
        if !isPotentialSwizzle t.value && !alistHas m t.value then
          structInnerGo (alistSet m t.value (nextName ctr)) (ctr + 1) rest
        else structInnerGo m ctr rest
      else structInnerGo m ctr rest

/-- The outer loop of `collectStructNames`: on a `struct` keyword skip the
next token (`i += 2`), scan the body, and resume after the closing brace. Fuel
is instantiated with `length + 1`; every iteration consumes at least one
token. -/
def collectStructGo : Nat → List (String × String) → Nat → List Token →
    List (String × String) × Nat
  | 0, m, ctr, _ => (m, ctr)
  | _ + 1, m, ctr, [] => (m, ctr)
  | fuel + 1, m, ctr, t :: rest =>
    if t.type == "keyword" && t.value == "struct" then
      let r := structInnerGo m ctr (rest.drop 1)
      collectStructGo fuel r.1 r.2.1 (r.2.2.drop 1)
    else collectStructGo fuel m ctr rest

/-- `collectStructNames` of collect-struct-names.ts, with the name counter
threaded explicitly. -/
def collectStructNames (tokens : List Token) (ctr : Nat) : List (String × String) × Nat :=
  collectStructGo (tokens.length + 1) [] ctr tokens

/-- The directive-token regex `^#(\w+)\s+"([^"]+)"` of
collect-declared-identifiers-and-entry-points.ts: directive type and quoted
name. -/
def parseDirectiveToken (s : String) : Option (String × String) :=
  match s.data with
  | '#' :: rest =>
    let w := rest.takeWhile isWordChar
    if w.isEmpty then none else
    let r1 := rest.drop w.length
    let sp := (r1.takeWhile isJsSpace).length
    if sp == 0 then none else
    match r1.drop sp with
    | '"' :: r2 =>
      let nm := r2.takeWhile (fun c => !(c == '"'))
      if nm.isEmpty then none else
      match r2.drop nm.length with
      | '"' :: _ => some (⟨w⟩, ⟨nm⟩)
      | _ => none
    | _ => none
  | _ => none

/-- The registration decision for a function name after a `fn` keyword
(lines 30–34 of collect-declared-identifiers-and-entry-points.ts): skip when
the name is an entry point or, with no entry points declared, exactly `main`;
otherwise register it if new. -/
def registerFnName (entryPoints : List String) (funcName : String)
    (idMap : List (String × String)) (ctr : Nat) : List (String × String) × Nat :=
  if !(entryPoints.contains funcName || (entryPoints.isEmpty && funcName == "main")) then
    if !alistHas idMap funcName then (alistSet idMap funcName (nextName ctr), ctr + 1)
    else (idMap, ctr)
  else (idMap, ctr)

/-- The parameter scan inside a function's parameter list: register every
`name :` pattern (advancing two tokens on a hit), stop at `)` (left for the
outer increment). Fuel is instantiated with `length + 1`. -/
def paramScanGo : Nat → List (String × String) → Nat → List Token →
    List (String × String) × Nat × List Token
  | 0, m, ctr, s => (m, ctr, s)
  | _ + 1, m, ctr, [] => (m, ctr, [])
  | fuel + 1, m, ctr, t :: rest =>
    if t.value == ")" then (m, ctr, t :: rest)
    else if t.type == "identifier" &&
        (match rest.head? with | some n => n.value == ":" | none => false) then
      let mc := if !alistHas m t.value then (alistSet m t.value (nextName ctr), ctr + 1)
                else (m, ctr)
      paramScanGo fuel mc.1 mc.2 (rest.drop 1)
    else paramScanGo fuel m ctr rest

/-- The token loop of `collectDeclaredIdentifiersAndEntryPoints`: binding and
entry-point directives, `fn` declarations with their parameter lists,
`let`/`var`/`const` variables and `struct` names. Fuel is instantiated with
`length + 1`; every iteration consumes at least one token. -/
def declaredGo : Nat → List Token → List (String × String) → List (String × String) →
    List String → Nat → List (String × String) × List (String × String) × Nat
  | 0, _, idMap, bMap, _, ctr => (idMap, bMap, ctr)
  | _ + 1, [], idMap, bMap, _, ctr => (idMap, bMap, ctr)
  | fuel + 1, t :: rest, idMap, bMap, entryPoints, ctr =>
    if t.type == "directive" then
      match parseDirectiveToken t.value with
      | some (dt, name) =>
        if dt == "binding" then
          let p := if !alistHas idMap name then (alistSet idMap name (nextName ctr), ctr + 1)
                   else (idMap, ctr)
          let b := match alistGet p.1 name with
            | some nn => alistSet bMap name nn
            | none => bMap
          declaredGo fuel rest p.1 b entryPoints p.2
        else if dt == "entrypoint" then
          let eps := if entryPoints.contains name then entryPoints else entryPoints ++ [name]
          declaredGo fuel rest idMap bMap eps ctr
        else declaredGo fuel rest idMap bMap entryPoints ctr
      | none => declaredGo fuel rest idMap bMap entryPoints ctr
    else if t.type == "keyword" then
      if t.value == "fn" then
        match rest with
        | f :: rest2 =>
          if f.type == "identifier" then
            let p := registerFnName entryPoints f.value idMap ctr
            match rest2 with
            | lp :: rest3 =>
              if lp.value == "(" then
                let q := paramScanGo (rest3.length + 1) p.1 p.2 rest3
                declaredGo fuel (q.2.2.drop 1) q.1 bMap entryPoints q.2.1
              else declaredGo fuel rest2 p.1 bMap entryPoints p.2
            | [] => declaredGo fuel [] p.1 bMap entryPoints p.2
          else declaredGo fuel rest idMap bMap entryPoints ctr
        | [] => declaredGo fuel [] idMap bMap entryPoints ctr
      else if t.value == "let" || t.value == "var" || t.value == "const" then
        match rest with
        | f :: rest2 =>
          if f.type == "identifier" then
            let p := if !alistHas idMap f.value then (alistSet idMap f.value (nextName ctr), ctr + 1)
                     else (idMap, ctr)
            declaredGo fuel rest2 p.1 bMap entryPoints p.2
          else declaredGo fuel rest idMap bMap entryPoints ctr
        | [] => declaredGo fuel [] idMap bMap entryPoints ctr
      else if t.value == "struct" then
        match rest with
        | f :: rest2 =>
          if f.type == "identifier" then
            let p := if !alistHas idMap f.value then (alistSet idMap f.value (nextName ctr), ctr + 1)
                     else (idMap, ctr)
            declaredGo fuel rest2 p.1 bMap entryPoints p.2
          else declaredGo fuel rest idMap bMap entryPoints ctr
        | [] => declaredGo fuel [] idMap bMap entryPoints ctr
      else declaredGo fuel rest idMap bMap entryPoints ctr
    else declaredGo fuel rest idMap bMap entryPoints ctr

/-- `collectDeclaredIdentifiersAndEntryPoints`, with the counter threaded
explicitly: identifier map, binding map, and final counter. -/
def collectDeclaredIdentifiersAndEntryPoints (tokens : List Token) (ctr : Nat) :
    List (String × String) × List (String × String) × Nat :=
  declaredGo (tokens.length + 1) tokens [] [] [] ctr

/-- `replaceIdentifiers` of src/obfuscation/replace-identifiers.ts: the
context-aware substitution pass (struct members before `:` inside struct
bodies, preservation of swizzle-shaped accesses after `.`, top-level
identifiers through the identifier map); directive tokens are dropped. The
previous token is the original predecessor, as in the source. -/
def replaceIdentifiersGo (idMap structMap : List (String × String)) :
    Bool → Option Token → List Token → List Token
  | _, _, [] => []
  | inStruct, prev, t :: rest =>
    if t.type == "keyword" && t.value == "struct" then
      t :: replaceIdentifiersGo idMap structMap true (some t) rest
    else if inStruct && t.value == "\x7d" then
      t :: replaceIdentifiersGo idMap structMap false (some t) rest
    else if t.type == "identifier" then
      let t2 :=
        if inStruct && (match rest.head? with | some n => n.value == ":" | none => false) then
          match alistGet structMap t.value with
          | some nv => { t with value := nv }
          | none => t
        else if (match prev with | some p => p.value == "." | none => false) then
          if alistHas structMap t.value && !swizzles.contains t.value then
            { t with value := (alistGet structMap t.value).getD t.value }
          else t
        else
          match alistGet idMap t.value with
          | some nv => { t with value := nv }
          | none => t
      t2 :: replaceIdentifiersGo idMap structMap inStruct (some t) rest
    else if t.type != "directive" then
      t :: replaceIdentifiersGo idMap structMap inStruct (some t) rest
    else replaceIdentifiersGo idMap structMap inStruct (some t) rest

/-- `replaceIdentifiers` entry point. -/
def replaceIdentifiers (tokens : List Token) (idMap structMap : List (String × String)) :
    List Token :=
  replaceIdentifiersGo idMap structMap false none tokens

/-- The walk of `reconstructObfuscatedCode`: emit each token's text and a
single space after a keyword, identifier or attribute token whose successor is
not an operator. The successor bound uses the original token list's length
while indexing the obfuscated list, as in the source (an out-of-range access
yields `undefined`, hence no space). -/
def reconstructGo (origLen : Nat) : Nat → List Token → String
  | _, [] => ""
  | i, t :: rest =>
    let nextTok : Option Token := if i + 1 < origLen then rest.head? else none
    t.value ++
      (match nextTok with
       | some n =>
         if (t.type == "keyword" || t.type == "identifier" || t.type == "attribute") &&
             n.type != "operator" then " " else ""
       | none => "") ++
      reconstructGo origLen (i + 1) rest

/-- `reconstructObfuscatedCode` of reconstruct-obfuscated-code.ts. -/
def reconstructObfuscatedCode (obfuscatedTokens origTokens : List Token) : String :=
  reconstructGo origTokens.length 0 obfuscatedTokens

/-- `obfuscate` of obfuscate.ts: reset the counter, tokenize (comments are
already skipped by the tokenizer; the comment filter of the driver is kept),
collect struct members, collect declared identifiers and entry points, replace
identifiers, reconstruct, and prepend one `//#!binding` comment line per
binding-map entry. A tokenizer error propagates. -/
def obfuscate (code : String) : Except LexError String :=
  match tokenizeWgsl code with
  | .error e => .error e
  | .ok toks0 =>
    let tokens := toks0.filter (fun t => t.type != "comment")
    let sm := collectStructNames tokens 0
    let dm := collectDeclaredIdentifiersAndEntryPoints tokens sm.2
    let obfTokens := replaceIdentifiers tokens dm.1 sm.1
    let obfCode := reconstructObfuscatedCode obfTokens tokens
    let bindingComments :=
      String.intercalate "\n" (dm.2.1.map (fun p => "//#!binding " ++ p.1 ++ " " ++ p.2))
    .ok (if bindingComments != "" then bindingComments ++ "\n" ++ obfCode else obfCode)

/-- A chunk of the tokenizer's input decomposition: the optional token it
produced (whitespace and comments produce none) and the consumed text. The
chunk is well-formed when a produced token's text is exactly the consumed
text, and a skipped chunk is whitespace or a comment. -/
def chunkOk : Option Token × List Char → Prop
  | (some t, text) => t.value = ⟨text⟩
  | (none, text) =>
    (∀ c ∈ text, isJsSpace c = true) ∨ (∃ r, text = '/' :: '/' :: r) ∨
      (∃ r, text = '/' :: '*' :: r)

/-! ## Theorems -/

/-- Helper: `Except.map` agrees with the match used in `processLine`'s
ordinary-line branch. -/
theorem exceptMap_expand (st : PState) (line : String) :
    (match expandMacros line st.defines with
     | .ok e => Except.ok { st with out := st.out ++ [e] }
     | .error msg => Except.error msg) =
    (expandMacros line st.defines).map (fun e => { st with out := st.out ++ [e] }) := by
  cases expandMacros line st.defines <;> rfl

/-- Claim C1. In `processConditionals`, a non-directive line (its trimmed form
does not start with `#`) is emitted to the output if and only if every
`ConditionalState` frame on the stack has `including = true` (the conjunction
`isCurrentlyIncluding` over the whole stack): when the stack is all-including
the macro-expanded line is appended (an expansion error propagating), and
otherwise the state is returned unchanged, no line emitted. In particular, for
nested `#ifdef OUTER` / `#ifdef INNER`, the inner line appears iff both names
are defined, and with only `OUTER` defined the outer lines still appear while
the inner line is excluded. -/
theorem claim_C1_stack_conjunction :
    (∀ (line : String) (st : PState),
      ("#".data.isPrefixOf (jsTrim line).data) = false →
      (stackIncluding st.stack = true →
        processLine st line =
          (expandMacros line st.defines).map (fun e => { st with out := st.out ++ [e] })) ∧
      (stackIncluding st.stack = false → processLine st line = .ok st)) ∧
    processConditionals ["#define OUTER", "#ifdef OUTER", "out1", "#ifdef INNER", "inner",
      "#endif", "out2", "#endif"] [] = .ok ["out1", "out2"] ∧
    processConditionals ["#define OUTER", "#define INNER", "#ifdef OUTER", "out1",
      "#ifdef INNER", "inner", "#endif", "out2", "#endif"] [] =
      .ok ["out1", "inner", "out2"] := by
  refine ⟨fun line st h => ⟨fun hinc => ?_, fun hexc => ?_⟩, rfl, rfl⟩
  · rw [← exceptMap_expand]
    unfold processLine
    simp only [h, Bool.false_eq_true, if_false, hinc, if_true]
  · unfold processLine
    simp only [h, Bool.false_eq_true, if_false, hexc]

/-- Witness for C1 at a concrete non-directive line and all-including state. -/
theorem claim_C1_stack_conjunction_witness :
    processLine ⟨[], [], []⟩ "hello" = .ok ⟨[], [], ["hello"]⟩ := by
  have h := (claim_C1_stack_conjunction.1 "hello" ⟨[], [], []⟩ (by decide)).1 rfl
  rw [h]; rfl

/-- Claim C7. Once a branch of a conditional chain has been true
(`hasBeenTrue` set on the top frame), every subsequent `#elif` is forced to
`including = false` regardless of its own condition — for every line that
parses as an `#elif` directive, with arbitrary condition text, for any macro
table, without evaluating the expression — and every subsequent `#else` is
likewise forced to `including = false` (recording that an `#else` was seen);
in the concrete chains where `#if 0` is false and the first `#elif 1` takes
the branch, neither the second `#elif 1` body nor the `#else` body is
emitted. -/
theorem claim_C7_elif_exclusivity :
    (∀ (line : String) (inc : Bool) (rest : List ConditionalState) (d : Defines)
        (out : List String),
      "#".data.isPrefixOf (jsTrim line).data = true →
      matchKeywordSpace "#elif" (stripLineComment (jsTrim line)) = true →
      processLine ⟨⟨inc, true, false⟩ :: rest, d, out⟩ line =
        .ok ⟨⟨false, true, false⟩ :: rest, d, out⟩) ∧
    (∀ (line : String) (inc : Bool) (rest : List ConditionalState) (d : Defines)
        (out : List String),
      "#".data.isPrefixOf (jsTrim line).data = true →
      matchKeywordEnd "#else" (stripLineComment (jsTrim line)) = true →
      processLine ⟨⟨inc, true, false⟩ :: rest, d, out⟩ line =
        .ok ⟨⟨false, true, true⟩ :: rest, d, out⟩) ∧
    processConditionals ["#if 0", "A", "#elif 1", "B", "#elif 1", "C", "#endif"] [] =
      .ok ["B"] ∧
    processConditionals ["#if 0", "A", "#elif 1", "B", "#else", "C", "#endif"] [] =
      .ok ["B"] := by
  refine ⟨?_, ?_, rfl, rfl⟩
  · intro line inc rest d out h1 h2
    have hpre : "#elif".data.isPrefixOf (stripLineComment (jsTrim line)).data = true := by
      cases hb : "#elif".data.isPrefixOf (stripLineComment (jsTrim line)).data
      · unfold matchKeywordSpace at h2
        rw [hb] at h2
        simp at h2
      · rfl
    obtain ⟨t, ht⟩ := List.isPrefixOf_iff_prefix.mp hpre
    have hdef : matchKeywordSpace "#define" (stripLineComment (jsTrim line)) = false := by
      unfold matchKeywordSpace; rw [← ht]; rfl
    have hundef : matchKeywordSpace "#undef" (stripLineComment (jsTrim line)) = false := by
      unfold matchKeywordSpace; rw [← ht]; rfl
    have hif : matchKeywordSpace "#if" (stripLineComment (jsTrim line)) = false := by
      unfold matchKeywordSpace; rw [← ht]; rfl
    have hifdef : matchKeywordSpace "#ifdef" (stripLineComment (jsTrim line)) = false := by
      unfold matchKeywordSpace; rw [← ht]; rfl
    have hifndef : matchKeywordSpace "#ifndef" (stripLineComment (jsTrim line)) = false := by
      unfold matchKeywordSpace; rw [← ht]; rfl
    unfold processLine
    simp only [h1, hdef, hundef, hif, hifdef, hifndef, h2, if_true, Bool.false_eq_true,
      if_false]
    rfl
  · intro line inc rest d out h1 h2
    have hpre : "#else".data.isPrefixOf (stripLineComment (jsTrim line)).data = true := by
      cases hb : "#else".data.isPrefixOf (stripLineComment (jsTrim line)).data
      · unfold matchKeywordEnd at h2
        rw [hb] at h2
        simp at h2
      · rfl
    obtain ⟨t, ht⟩ := List.isPrefixOf_iff_prefix.mp hpre
    have hdef : matchKeywordSpace "#define" (stripLineComment (jsTrim line)) = false := by
      unfold matchKeywordSpace; rw [← ht]; rfl
    have hundef : matchKeywordSpace "#undef" (stripLineComment (jsTrim line)) = false := by
      unfold matchKeywordSpace; rw [← ht]; rfl
    have hif : matchKeywordSpace "#if" (stripLineComment (jsTrim line)) = false := by
      unfold matchKeywordSpace; rw [← ht]; rfl
    have hifdef : matchKeywordSpace "#ifdef" (stripLineComment (jsTrim line)) = false := by
      unfold matchKeywordSpace; rw [← ht]; rfl
    have hifndef : matchKeywordSpace "#ifndef" (stripLineComment (jsTrim line)) = false := by
      unfold matchKeywordSpace; rw [← ht]; rfl
    have helif : matchKeywordSpace "#elif" (stripLineComment (jsTrim line)) = false := by
      unfold matchKeywordSpace; rw [← ht]; rfl
    unfold processLine
    simp only [h1, hdef, hundef, hif, hifdef, hifndef, helif, h2, if_true,
      Bool.false_eq_true, if_false]
    rfl

/-- Witness for C7: after a true branch, a concrete `#elif 1` (whose condition
would evaluate true) and a concrete `#else` both force the top frame to
`including = false`. -/
theorem claim_C7_elif_exclusivity_witness :
    processLine ⟨[⟨true, true, false⟩], [], []⟩ "#elif 1" =
      .ok ⟨[⟨false, true, false⟩], [], []⟩ ∧
    processLine ⟨[⟨true, true, false⟩], [], []⟩ "#else" =
      .ok ⟨[⟨false, true, true⟩], [], []⟩ :=
  ⟨claim_C7_elif_exclusivity.1 "#elif 1" true [] [] [] (by decide) (by decide),
   claim_C7_elif_exclusivity.2.1 "#else" true [] [] [] (by decide) (by decide)⟩

/-- Claim C4. A `fn` keyword followed by an identifier registers that function
name for renaming unless the name is in the entry-point set or, when that set
is empty, the name is exactly `main` (an already-registered name keeps its
mapping); and with a directive naming `main2` and a function literally named
`main2`, obfuscation leaves `main2` unrenamed everywhere while the unrelated
helper function is renamed to the generated name `_0`. -/
theorem claim_C4_entry_point_preservation :
    (∀ (entryPoints : List String) (funcName : String) (idMap : List (String × String))
        (ctr : Nat),
      registerFnName entryPoints funcName idMap ctr =
        if entryPoints.contains funcName || (entryPoints.isEmpty && funcName == "main") then
          (idMap, ctr)
        else if alistHas idMap funcName then (idMap, ctr)
        else (alistSet idMap funcName (nextName ctr), ctr + 1)) ∧
    obfuscate "#entrypoint \"main2\"\nfn main2() { helper(); }\nfn helper() { }" =
      .ok "fn main2(){_0();}fn _0(){}" := by
  refine ⟨fun entryPoints funcName idMap ctr => ?_, rfl⟩
  unfold registerFnName
  cases h : (entryPoints.contains funcName || (entryPoints.isEmpty && funcName == "main")) <;>
    cases h2 : alistHas idMap funcName <;> simp [h, h2]

/-- Claim C5, counterexample. The claim says every `#define` processed while
including stores the fully macro-expanded right-hand side; but for the
function-like `#define F(x) A` with `A` defined as `1`, the stored value is
the unexpanded `A`, not the definition-time expansion `1` (which
`expandMacros` would produce). -/
theorem claim_C5_counterexample :
    processLine ⟨[], [("A", ⟨"1", none⟩)], []⟩ "#define F(x) A" =
      .ok ⟨[], [("A", ⟨"1", none⟩), ("F", ⟨"A", some ["x"]⟩)], []⟩ ∧
    expandMacros "A" [("A", ⟨"1", none⟩)] = .ok "1" ∧
    ("A" : String) ≠ "1" :=
  ⟨rfl, rfl, by decide⟩

/-- Claim C5, amended. When a `#define` is processed while including, an
object-like (simple) macro with a non-empty value text stores that text
expanded once against the macro table as it exists at the `#define`
(propagating an expansion error), while a function-like macro stores its body
unexpanded; eager rather than lazy capture is observable in the scenario where
`B` is defined as `A`, `A` is then undefined, and `B` still expands to `1`. -/
theorem claim_C5_amended :
    (∀ (dl : String) (d : Defines) (name : String),
      parseFnLikeDefine dl = none →
      parseDefineSimpleName dl = some name →
      defineValueText dl name ≠ "" →
      handleDefine dl d =
        (expandMacros (defineValueText dl name) d).map
          (fun ev => alistSet d name ⟨ev, none⟩)) ∧
    (∀ (dl : String) (d : Defines) (name : String) (params : List String) (value : String),
      parseFnLikeDefine dl = some (name, params, value) →
      handleDefine dl d = .ok (alistSet d name ⟨value, some params⟩)) ∧
    processConditionals ["#define A 1", "#define B A", "#undef A", "B"] [] = .ok ["1"] := by
  refine ⟨fun dl d name h1 h2 h3 => ?_, fun dl d name params value h => ?_, rfl⟩
  · unfold handleDefine
    rw [h1, h2]
    have hb : (defineValueText dl name == "") = false := by
      cases hbe : defineValueText dl name == "" with
      | true => exact absurd (by simpa using hbe) h3
      | false => rfl
    simp only [hb, Bool.false_eq_true, if_false]
    cases expandMacros (defineValueText dl name) d <;> rfl
  · unfold handleDefine
    rw [h]

/-- Witness for C5 at `#define B A` with `A` defined as `1`. -/
theorem claim_C5_amended_witness :
    handleDefine "#define B A" [("A", ⟨"1", none⟩)] =
      .ok [("A", ⟨"1", none⟩), ("B", ⟨"1", none⟩)] := by
  have h := claim_C5_amended.1 "#define B A" [("A", ⟨"1", none⟩)] "B" rfl rfl (by decide)
  rw [h]; rfl

/-- Claim C6. For a function-like macro with `k` parameters, an invocation
whose parsed top-level-comma argument count `j` differs from `k` raises the
arity error naming the macro and both counts (`arityMessage`), and an
invocation with `j = k` substitutes without an arity error; end to end,
`F(1)` against `#define F(x, y)`-style parameters fails with the exact
message while `F(1,2)` expands. -/
theorem claim_C6_arity_invariant :
    (∀ (name : String) (params : List String) (value : String) (args : List (List Char)),
      (args.length ≠ params.length →
        fnInvocationStep name params value args =
          .error (arityMessage name params.length args.length)) ∧
      (args.length = params.length →
        fnInvocationStep name params value args = .ok (substParams params args value.data))) ∧
    expandMacros "F(1)" [("F", ⟨"x+y", some ["x", "y"]⟩)] =
      .error "Macro F expects 2 arguments, got 1" ∧
    expandMacros "F(1,2)" [("F", ⟨"x+y", some ["x", "y"]⟩)] = .ok "1+2" := by
  refine ⟨fun name params value args => ⟨fun hne => ?_, fun heq => ?_⟩, rfl, rfl⟩
  · unfold fnInvocationStep
    have hb : (args.length == params.length) = false := by
      cases hbe : args.length == params.length with
      | true => exact absurd (by simpa using hbe) hne
      | false => rfl
    simp [hb]
  · unfold fnInvocationStep
    simp [heq]

/-- Witness for C6 at a one-argument invocation of a two-parameter macro. -/
theorem claim_C6_arity_invariant_witness :
    fnInvocationStep "F" ["x", "y"] "x+y" [['1']] =
      .error "Macro F expects 2 arguments, got 1" := by
  have h := (claim_C6_arity_invariant.1 "F" ["x", "y"] "x+y" [['1']]).1 (by decide)
  rw [h]; rfl

/-- Claim C8. `evaluateExpression` is total (it always returns a boolean) and
never propagates an evaluation error: whenever the rewritten expression is not
a standalone number and the final host evaluation fails, the result is `false`
(the fail-safe catch), so a malformed `#if`/`#elif` condition excludes the
guarded code instead of aborting. -/
theorem claim_C8_failsafe :
    ∀ (expr : String) (d : Defines),
      (evaluateExpression expr d = true ∨ evaluateExpression expr d = false) ∧
      (isStandaloneNumber (rewriteExpr expr d) = false →
        jsEval (rewriteExpr expr d) = none → evaluateExpression expr d = false) := by
  intro expr d
  constructor
  · cases h : evaluateExpression expr d
    · right; rfl
    · left; rfl
  · intro h1 h2
    unfold evaluateExpression
    simp only [h1, Bool.false_eq_true, if_false, h2]

/-- Witness for C8 at the malformed expression `((` (unbalanced parens). -/
theorem claim_C8_failsafe_witness : evaluateExpression "((" [] = false :=
  (claim_C8_failsafe "((" []).2 (by decide) (by decide)

/-- Claim C10. For every macro table in which `NAME` is an object-like macro
with empty replacement text, the evaluator replaces a bare `NAME` by `"0"`
(via `macro.value || "0"`), so `#if NAME` evaluates to false, while
`defined(NAME)` rewrites to `"1"` (so `#if defined(NAME)` is true) and
`#ifdef NAME` pushes an including frame. -/
theorem claim_C10_empty_value (d : Defines) (h : alistGet d "NAME" = some ⟨"", none⟩) :
    evaluateExpression "NAME" d = false ∧
    evaluateExpression "defined(NAME)" d = true ∧
    alistHas d "NAME" = true ∧
    processLine ⟨[], d, []⟩ "#ifdef NAME" = .ok ⟨[⟨true, true, false⟩], d, []⟩ := by
  have hh : alistHas d "NAME" = true := by
    unfold alistHas; rw [h]; rfl
  refine ⟨?_, ?_, hh, ?_⟩
  · unfold evaluateExpression rewriteExpr
    rw [show definedReplaceGo d ("NAME".data.length + 1) "NAME".data = "NAME".data from rfl]
    simp only []
    rw [show eqLoopGo d ("NAME".data.length + 1) "NAME".data 0 = "NAME".data from rfl]
    rw [show identReplaceGo d ("NAME".data.length + 1) false "NAME".data =
      (match alistGet d "NAME" with
       | some m => if m.params.isNone then (if m.value == "" then "0" else m.value) else "0"
       | none => ("0" : String)).data ++ identReplaceGo d "NAME".data.length true [] from rfl]
    rw [h]; rfl
  · unfold evaluateExpression rewriteExpr
    simp only []
    rw [show definedReplaceGo d ("defined(NAME)".data.length + 1) "defined(NAME)".data =
      (if alistHas d "NAME" then ['1'] else ['0']) ++
        definedReplaceGo d "defined(NAME)".data.length [] from rfl]
    rw [hh]; rfl
  · rw [show processLine ⟨[], d, []⟩ "#ifdef NAME" =
      .ok ⟨[⟨alistHas d "NAME", alistHas d "NAME", false⟩], d, []⟩ from rfl]
    rw [hh]

/-- Witness for C10 at the singleton table defining `NAME` as empty. -/
theorem claim_C10_empty_value_witness :
    evaluateExpression "NAME" [("NAME", ⟨"", none⟩)] = false ∧
    evaluateExpression "defined(NAME)" [("NAME", ⟨"", none⟩)] = true :=
  ⟨(claim_C10_empty_value [("NAME", ⟨"", none⟩)] rfl).1,
   (claim_C10_empty_value [("NAME", ⟨"", none⟩)] rfl).2.1⟩

/-- Helper: an entry of `alistSet m k v` is either the new pair or an entry of
`m`. -/
theorem mem_alistSet {α : Type} (k : String) (v : α) :
    ∀ (m : List (String × α)) (q : String × α), q ∈ alistSet m k v → q = (k, v) ∨ q ∈ m := by
  intro m
  induction m with
  | nil => intro q hq; simp [alistSet] at hq; left; exact hq
  | cons p t ih =>
    obtain ⟨k0, v0⟩ := p
    intro q hq
    by_cases hk : (k0 == k) = true
    · simp only [alistSet, hk, if_true] at hq
      rcases List.mem_cons.1 hq with h1 | h1
      · left
        have : k0 = k := by simpa using hk
        simpa [this] using h1
      · right; exact List.mem_cons_of_mem _ h1
    · simp only [alistSet, hk, Bool.false_eq_true, if_false] at hq
      rcases List.mem_cons.1 hq with h1 | h1
      · right; exact h1 ▸ List.mem_cons_self _ _
      · rcases ih q h1 with h2 | h2
        · left; exact h2
        · right; exact List.mem_cons_of_mem _ h2

/-- Helper: the struct-member scan only ever adds names that are not
swizzle-shaped. -/
theorem structInnerGo_inv :
    ∀ (l : List Token) (m : List (String × String)) (ctr : Nat),
      (∀ q ∈ m, isPotentialSwizzle q.1 = false) →
      ∀ q ∈ (structInnerGo m ctr l).1, isPotentialSwizzle q.1 = false := by
  intro l
  induction l with
  | nil => intro m ctr hm q hq; exact hm q hq
  | cons t rest ih =>
    intro m ctr hm q hq
    unfold structInnerGo at hq
    split_ifs at hq with h1 h2 h3
    · exact hm q hq
    · have hsw : isPotentialSwizzle t.value = false := by
        cases hb : isPotentialSwizzle t.value
        · rfl
        · rw [hb] at h3; simp at h3
      refine ih _ _ ?_ q hq
      intro r hr
      rcases mem_alistSet _ _ _ r hr with h4 | h4
      · rw [h4]; exact hsw
      · exact hm r h4
    · exact ih _ _ hm q hq
    · exact ih _ _ hm q hq

/-- Helper: the outer struct scan preserves the non-swizzle invariant of the
member map. -/
theorem collectStructGo_inv :
    ∀ (fuel : Nat) (l : List Token) (m : List (String × String)) (ctr : Nat),
      (∀ q ∈ m, isPotentialSwizzle q.1 = false) →
      ∀ q ∈ (collectStructGo fuel m ctr l).1, isPotentialSwizzle q.1 = false := by
  intro fuel
  induction fuel with
  | zero => intro l m ctr hm q hq; exact hm q hq
  | succ fuel ih =>
    intro l m ctr hm q hq
    cases l with
    | nil => exact hm q hq
    | cons t rest =>
      unfold collectStructGo at hq
      split_ifs at hq with h1
      · exact ih _ _ _ (structInnerGo_inv _ _ _ hm) q hq
      · exact ih _ _ _ hm q hq

/-- Claim C3. The obfuscator's struct-member collection registers a field name
(an identifier immediately followed by `:` inside a struct body) only if it is
not a valid vector-swizzle string (1–4 characters over `{x,y,z,w,r,g,b,a}`,
the character set of `generateSwizzles`): every entry of the collected map has
a non-swizzle-shaped name. Consequently, for a struct field literally named
`xy`, both the `xy:` declaration and the `.xy` access remain unrenamed in the
obfuscated output, shown end to end. -/
theorem claim_C3_swizzle_preservation :
    (∀ (tokens : List Token) (ctr : Nat) (name gen : String),
      (name, gen) ∈ (collectStructNames tokens ctr).1 → isPotentialSwizzle name = false) ∧
    obfuscate "struct S { xy: vec2<f32> } fn f(p: S) -> f32 { let q = p.xy; return q.x; }" =
      .ok "struct _0{xy:vec2<f32>}fn _1(_2:_0)->f32{let _3=_2.xy;return _3.x;}" := by
  refine ⟨fun tokens ctr name gen hmem => ?_, rfl⟩
  exact collectStructGo_inv _ _ _ _ (by intro q hq; simp at hq) (name, gen) hmem

/-- Witness for C3: the non-swizzle member `alpha` collected from a concrete
struct token stream is indeed not swizzle-shaped. -/
theorem claim_C3_swizzle_preservation_witness : isPotentialSwizzle "alpha" = false :=
  claim_C3_swizzle_preservation.1
    [⟨"keyword", "struct"⟩, ⟨"identifier", "S"⟩, ⟨"operator", "\x7b"⟩,
     ⟨"identifier", "alpha"⟩, ⟨"operator", ":"⟩, ⟨"keyword", "f32"⟩, ⟨"operator", "\x7d"⟩]
    0 "alpha" "_0" (by decide)

/-- Helper: substring search on a cons unfolds to a prefix test or a search in
the tail. -/
theorem containsSub_cons (pat : List Char) (c : Char) (t : List Char) :
    containsSub pat (c :: t) = (pat.isPrefixOf (c :: t) || containsSub pat t) := by
  have hf : findSub pat (c :: t) =
      (if pat.isPrefixOf (c :: t) then some 0 else (findSub pat t).map (· + 1)) := rfl
  unfold containsSub
  rw [hf]
  cases hb : pat.isPrefixOf (c :: t)
  · simp only [Bool.false_eq_true, if_false, Bool.false_or]
    cases findSub pat t <;> rfl
  · rfl

/-- Helper: a prefix is in particular a substring. -/
theorem isPrefixOf_containsSub (pat s : List Char) (h : pat.isPrefixOf s = true) :
    containsSub pat s = true := by
  cases s with
  | nil =>
    cases pat with
    | nil => rfl
    | cons c t => simp [List.isPrefixOf] at h
  | cons c t => rw [containsSub_cons, h]; rfl

/-- Helper: a substring check stays negative on the `dropWhile` suffix. -/
theorem containsSub_dropWhile (pat : List Char) (p : Char → Bool) :
    ∀ s, containsSub pat s = false → containsSub pat (s.dropWhile p) = false := by
  intro s
  induction s with
  | nil => intro h; simpa using h
  | cons c t ih =>
    intro h
    rw [containsSub_cons] at h
    have h1 : pat.isPrefixOf (c :: t) = false := by
      cases hb : pat.isPrefixOf (c :: t)
      · rfl
      · rw [hb] at h; simp at h
    have h2 : containsSub pat t = false := by
      cases hb : containsSub pat t
      · rfl
      · rw [hb] at h; simp at h
    rw [List.dropWhile_cons]
    split_ifs with hp
    · exact ih h2
    · rw [containsSub_cons, h1, h2]; rfl

/-- Helper: when the macro name occurs nowhere in the text, the word-boundary
replacement pass is the identity and reports no match. -/
theorem replaceWordGo_id (name v : List Char) :
    ∀ (fuel : Nat) (prevW : Bool) (s : List Char), containsSub name s = false →
      replaceWordGo name v fuel prevW s = (s, false) := by
  intro fuel
  induction fuel with
  | zero => intro prevW s h; rfl
  | succ fuel ih =>
    intro prevW s h
    cases s with
    | nil => rfl
    | cons c rest =>
      rw [containsSub_cons] at h
      have h1 : name.isPrefixOf (c :: rest) = false := by
        cases hb : name.isPrefixOf (c :: rest)
        · rfl
        · rw [hb] at h; simp at h
      have h2 : containsSub name rest = false := by
        cases hb : containsSub name rest
        · rfl
        · rw [hb] at h; simp at h
      unfold replaceWordGo
      simp only [h1, Bool.and_false, Bool.false_and, Bool.false_eq_true, if_false]
      rw [ih _ rest h2]

/-- Helper: when the single-letter macro's letter occurs nowhere in the text,
the single-letter pass is the identity and reports no match. -/
theorem singleLetterGo_id (letter : Char) (v : List Char) :
    ∀ (fuel : Nat) (atStart : Bool) (s : List Char), containsSub [letter] s = false →
      singleLetterGo letter v fuel atStart s = (s, false) := by
  intro fuel
  induction fuel with
  | zero => intro atStart s h; rfl
  | succ fuel ih =>
    intro atStart s h
    cases s with
    | nil => rfl
    | cons c rest =>
      rw [containsSub_cons] at h
      have h1 : [letter].isPrefixOf (c :: rest) = false := by
        cases hb : [letter].isPrefixOf (c :: rest)
        · rfl
        · rw [hb] at h; simp at h
      have hc : (c == letter) = false := by
        cases hb : c == letter
        · rfl
        · exfalso
          have hce : c = letter := by simpa using hb
          simp [List.isPrefixOf, hce] at h1
      have h2 : containsSub [letter] rest = false := by
        cases hb : containsSub [letter] rest
        · rfl
        · rw [hb] at h; simp at h
      unfold singleLetterGo
      simp only [hc, Bool.and_false, Bool.false_and, Bool.false_eq_true, if_false]
      cases rest with
      | nil => rfl
      | cons d rest2 =>
        have hd : (d == letter) = false := by
          rw [containsSub_cons] at h2
          cases hb : d == letter
          · rfl
          · exfalso
            have hde : d = letter := by simpa using hb
            simp [List.isPrefixOf, hde] at h2
        simp only [hd, Bool.and_false, Bool.false_and, Bool.false_eq_true, if_false]
        rw [ih _ (d :: rest2) h2]

/-- Helper: when the macro name occurs nowhere in the text, the function-like
invocation pass is the identity, reports no change, and raises no error. -/
theorem fnPassGo_id (name : String) (params : List String) (value : String) :
    ∀ (fuel : Nat) (prevW : Bool) (s : List Char), containsSub name.data s = false →
      fnPassGo name params value fuel prevW s = .ok (s, false) := by
  intro fuel
  induction fuel with
  | zero => intro prevW s h; rfl
  | succ fuel ih =>
    intro prevW s h
    cases s with
    | nil => rfl
    | cons c rest =>
      rw [containsSub_cons] at h
      have h1 : name.data.isPrefixOf (c :: rest) = false := by
        cases hb : name.data.isPrefixOf (c :: rest)
        · rfl
        · rw [hb] at h; simp at h
      have h2 : containsSub name.data rest = false := by
        cases hb : containsSub name.data rest
        · rfl
        · rw [hb] at h; simp at h
      unfold fnPassGo
      simp only [h1, Bool.and_false, Bool.false_and, Bool.false_eq_true, if_false]
      rw [ih _ rest h2]

/-- Helper: when the macro name occurs nowhere in the text, the `is defined`
idiom test is negative. -/
theorem isDefinedIdiom_of_not_contains (name s : List Char) (_hn : name ≠ [])
    (h : containsSub name s = false) : isDefinedIdiom name s = false := by
  have hd : containsSub name (s.dropWhile isJsSpace) = false :=
    containsSub_dropWhile name isJsSpace s h
  have hp : name.isPrefixOf (s.dropWhile isJsSpace) = false := by
    cases hb : name.isPrefixOf (s.dropWhile isJsSpace)
    · rfl
    · rw [isPrefixOf_containsSub _ _ hb] at hd; exact absurd hd (by simp)
  unfold isDefinedIdiom
  simp only []
  rw [hp]
  rfl

/-- Helper: membership in a stable length-descending insertion. -/
theorem mem_insertByLen (e : String × Macro) :
    ∀ (l : List (String × Macro)) (x : String × Macro),
      x ∈ insertByLen e l → x = e ∨ x ∈ l := by
  intro l
  induction l with
  | nil => intro x hx; simpa [insertByLen] using hx
  | cons h t ih =>
    intro x hx
    unfold insertByLen at hx
    split_ifs at hx
    · rcases List.mem_cons.1 hx with h1 | h1
      · right; exact h1 ▸ List.mem_cons_self _ _
      · rcases ih x h1 with h2 | h2
        · left; exact h2
        · right; exact List.mem_cons_of_mem _ h2
    · rcases List.mem_cons.1 hx with h1 | h1
      · left; exact h1
      · right; exact h1

/-- Helper: every entry of the sorted macro list is an entry of the table. -/
theorem mem_sortMacrosDesc (d : Defines) (x : String × Macro) :
    x ∈ sortMacrosDesc d → x ∈ d := by
  suffices h : ∀ (l acc : List (String × Macro)) (x : String × Macro),
      x ∈ l.foldl (fun acc e => insertByLen e acc) acc → x ∈ acc ∨ x ∈ l by
    intro hx
    rcases h d [] x hx with h1 | h1
    · simp at h1
    · exact h1
  intro l
  induction l with
  | nil => intro acc x hx; left; exact hx
  | cons e t ih =>
    intro acc x hx
    rcases ih (insertByLen e acc) x hx with h1 | h1
    · rcases mem_insertByLen e acc x h1 with h2 | h2
      · right; exact h2 ▸ List.mem_cons_self _ _
      · left; exact h2
    · right; exact List.mem_cons_of_mem _ h1

/-- Helper: a macro pass over macros none of whose names occur in the text is
the identity: no substitution, no change flag, no error. -/
theorem macroPass_id :
    ∀ (ms : List (String × Macro)) (s : List Char) (changed : Bool),
      (∀ p ∈ ms, p.1.data ≠ [] ∧ containsSub p.1.data s = false) →
      macroPass ms s changed = .ok (s, changed) := by
  intro ms
  induction ms with
  | nil => intro s changed hm; rfl
  | cons p rest ih =>
    intro s changed hm
    obtain ⟨name, mvalue, mparams⟩ := p
    have hp := hm (name, ⟨mvalue, mparams⟩) (List.mem_cons_self _ _)
    have hrest : ∀ q ∈ rest, q.1.data ≠ [] ∧ containsSub q.1.data s = false :=
      fun q hq => hm q (List.mem_cons_of_mem _ hq)
    have hp1 : name.data ≠ [] := hp.1
    have hp2 : containsSub name.data s = false := hp.2
    cases mparams with
    | none =>
      unfold macroPass
      simp only []
      rw [isDefinedIdiom_of_not_contains name.data s hp1 hp2]
      simp only [Bool.false_eq_true, if_false]
      by_cases hsingle : (name.data.length == 1 && (name.data.headD ' ').isAlpha) = true
      · rw [hsingle]
        simp only [if_true]
        have hone : name.data.length = 1 := by
          have hs2 := hsingle
          simp only [Bool.and_eq_true] at hs2
          simpa using hs2.1
        obtain ⟨c0, hc0⟩ : ∃ c0, name.data = [c0] := by
          cases hnd : name.data with
          | nil => rw [hnd] at hone; simp at hone
          | cons a t =>
            cases t with
            | nil => exact ⟨a, rfl⟩
            | cons b t2 => rw [hnd] at hone; simp at hone
        have hhead : name.data.headD ' ' = c0 := by rw [hc0]; rfl
        rw [hhead]
        have hcs : containsSub [c0] s = false := by rw [← hc0]; exact hp2
        rw [singleLetterGo_id c0 mvalue.data (s.length + 1) true s hcs]
        simp only [Bool.or_false]
        exact ih s changed hrest
      · have hsingle' : (name.data.length == 1 && (name.data.headD ' ').isAlpha) = false := by
          cases hb : (name.data.length == 1 && (name.data.headD ' ').isAlpha)
          · rfl
          · exact absurd hb hsingle
        rw [hsingle']
        simp only [Bool.false_eq_true, if_false]
        rw [replaceWordGo_id name.data mvalue.data (s.length + 1) false s hp2]
        simp only [bne_self_eq_false, Bool.false_eq_true, if_false, Bool.or_false]
        exact ih s changed hrest
    | some params =>
      unfold macroPass
      simp only []
      rw [fnPassGo_id name params mvalue (s.length + 1) false s hp2]
      simp only [Bool.false_eq_true, if_false]
      exact ih s changed hrest

/-- Helper: the fixpoint loop is the identity when the underlying pass is. -/
theorem expandLoop_id (sorted : List (String × Macro)) (s : List Char)
    (hm : macroPass sorted s false = .ok (s, false)) :
    ∀ fuel, expandLoop sorted fuel s = .ok s := by
  intro fuel
  cases fuel with
  | zero => rfl
  | succ n =>
    unfold expandLoop
    rw [hm]
    rfl

/-- Helper: an identifier-shaped string is nonempty. -/
theorem isIdentString_ne_nil (v : String) (h : isIdentString v = true) : v.data ≠ [] := by
  intro hnil
  unfold isIdentString at h
  rw [hnil] at h
  exact Bool.false_ne_true h

/-- Claim C2, counterexample. The claim (every macro table, every macro `M`
whose name occurs in the line only inside quoted string literals: `expand`
returns the line unchanged) fails at a macro literally named
`STRING_LITERAL_0`: the line consisting solely of the quoted literal
`"STRING_LITERAL_0"` is protected to exactly the placeholder
`###STRING_LITERAL_0###` (third conjunct — the macro name occurs only inside
the string literal), yet the word-boundary substitution rewrites the
placeholder itself, so the literal is never restored and the line comes back
as `###1###`. -/
theorem claim_C2_counterexample :
    expandMacros "\"STRING_LITERAL_0\"" [("STRING_LITERAL_0", ⟨"1", none⟩)] =
      .ok "###1###" ∧
    ("###1###" : String) ≠ "\"STRING_LITERAL_0\"" ∧
    protectLine "\"STRING_LITERAL_0\"".data =
      ("###STRING_LITERAL_0###".data, ["\"STRING_LITERAL_0\"".data]) :=
  ⟨rfl, by decide, rfl⟩

/-- Claim C2, amended. String protection holds for a line and table such that
every macro's name is a well-formed identifier — the only shape the `#define`
parsers produce, for which the interpolated regexes `\b${name}\b` and
`\b${name}\s*\(` match the name as literal text — and no macro's name survives
into the protected form of the line, i.e. it does not occur as a substring of
the line with its string literals replaced by their opaque placeholders (so in
particular each name occurs in the line only inside string literals and no
name has the internal placeholder shape `STRING_LITERAL_k`); and restoring the
placeholders, with the `GetSubstitution` expansion of a string replacement,
inverts protection on that line (so in particular the line contains no literal
placeholder text of its own and no string literal containing a dollar
substitution pattern such as `$&`): then `expandMacros` returns the line
unchanged. -/
theorem claim_C2_amended (line : String) (defines : Defines)
    (hocc : ∀ p ∈ defines, isIdentString p.1 = true ∧
      containsSub p.1.data (protectLine line.data).1 = false)
    (hres : restoreLiterals (protectLine line.data).2 (protectLine line.data).1 = line.data) :
    expandMacros line defines = .ok line := by
  unfold expandMacros
  simp only []
  have hsorted : ∀ p ∈ sortMacrosDesc defines, p.1.data ≠ [] ∧
      containsSub p.1.data (protectLine line.data).1 = false :=
    fun p hp =>
      ⟨isIdentString_ne_nil p.1 (hocc p (mem_sortMacrosDesc defines p hp)).1,
       (hocc p (mem_sortMacrosDesc defines p hp)).2⟩
  rw [expandLoop_id (sortMacrosDesc defines) (protectLine line.data).1
    (macroPass_id (sortMacrosDesc defines) (protectLine line.data).1 false hsorted)
    MAX_ITERATIONS]
  show Except.ok (⟨restoreLiterals (protectLine line.data).2 (protectLine line.data).1⟩ : String) =
    Except.ok line
  rw [hres]

/-- Witness for C2 at a line whose only use of the macro name `B` is inside a
double-quoted string literal. -/
theorem claim_C2_amended_witness :
    expandMacros "a \"B\" c" [("B", ⟨"1", none⟩)] = .ok "a \"B\" c" :=
  claim_C2_amended "a \"B\" c" [("B", ⟨"1", none⟩)] (by decide) (by decide)

/-- Helper: a whitespace match consumes at least one character and is exactly
the leading whitespace run. -/
theorem wsLen_eq {s : List Char} {n : Nat} (h : wsLen s = some n) :
    n = (s.takeWhile isJsSpace).length ∧ 1 ≤ n := by
  unfold wsLen at h
  simp only [] at h
  by_cases hz : ((s.takeWhile isJsSpace).length == 0) = true
  · rw [if_pos hz] at h; cases h
  · rw [if_neg hz] at h
    obtain rfl := Option.some.inj h
    have hL : (s.takeWhile isJsSpace).length ≠ 0 := by simpa using hz
    exact ⟨rfl, by omega⟩

/-- Helper: a comment match consumes at least one character. -/
theorem commentLen_pos {s : List Char} {n : Nat} (h : commentLen s = some n) : 1 ≤ n := by
  unfold commentLen at h
  split at h
  · obtain rfl := Option.some.inj h; omega
  · rcases Option.map_eq_some'.mp h with ⟨i, _, rfl⟩; omega
  · cases h

/-- Helper: a comment match starts with `//` or `/*`. -/
theorem commentLen_shape {s : List Char} {n : Nat} (h : commentLen s = some n) :
    (∃ r, s.take n = '/' :: '/' :: r) ∨ (∃ r, s.take n = '/' :: '*' :: r) := by
  unfold commentLen at h
  split at h
  · obtain rfl := Option.some.inj h
    rename_i rest0
    rw [show 2 + (rest0.takeWhile (fun c => !(c == '\n' || c == '\r'))).length =
      (rest0.takeWhile (fun c => !(c == '\n' || c == '\r'))).length + 1 + 1 from by omega,
      List.take_succ_cons, List.take_succ_cons]
    exact Or.inl ⟨_, rfl⟩
  · rcases Option.map_eq_some'.mp h with ⟨i, _, rfl⟩
    rename_i rest0 _
    rw [show 4 + i = (2 + i) + 1 + 1 from by omega, List.take_succ_cons, List.take_succ_cons]
    exact Or.inr ⟨_, rfl⟩
  · cases h

/-- Helper: a directive match consumes at least one character. -/
theorem directiveLen_pos {s : List Char} {n : Nat} (h : directiveLen s = some n) : 1 ≤ n := by
  unfold directiveLen at h
  split at h
  · simp only [] at h
    split_ifs at h
    · split at h
      · split_ifs at h
        · split at h
          · obtain rfl := Option.some.inj h; omega
          · cases h
      · cases h
  · cases h

/-- Helper: a string-literal match consumes at least one character. -/
theorem stringLen_pos {s : List Char} {n : Nat} (h : stringLen s = some n) : 1 ≤ n := by
  unfold stringLen at h
  split at h
  · simp only [] at h
    split at h
    · obtain rfl := Option.some.inj h; omega
    · cases h
  · cases h

/-- Helper: an identifier match consumes at least one character. -/
theorem identLen_pos {s : List Char} {n : Nat} (h : identLen s = some n) : 1 ≤ n := by
  unfold identLen at h
  split at h
  · split_ifs at h
    obtain rfl := Option.some.inj h; omega
  · cases h

/-- Helper: an operator match consumes at least one character. -/
theorem operatorLen_pos {s : List Char} {n : Nat} (h : operatorLen s = some n) : 1 ≤ n := by
  unfold operatorLen at h
  split at h
  · rename_i op hop
    obtain rfl := Option.some.inj h
    have hmem := List.mem_of_find?_eq_some hop
    have hall : ∀ op ∈ multiOps, 1 ≤ op.length := by decide
    exact hall op hmem
  · split at h
    · split_ifs at h
      obtain rfl := Option.some.inj h; omega
    · cases h

/-- Helper: a number match consumes at least one character. -/
theorem numberLen_pos {s : List Char} {n : Nat} (h : numberLen s = some n) : 1 ≤ n := by
  unfold numberLen at h
  simp only [] at h
  split at h
  · rename_i m hm
    obtain rfl := Option.some.inj h
    split at hm
    · split_ifs at hm
      · split at hm
        · split_ifs at hm <;> (obtain rfl := Option.some.inj hm; omega)
        · obtain rfl := Option.some.inj hm; omega
    · cases hm
  · split_ifs at h with hd
    · simp only [bne_iff_ne] at hd
      split at h
      · split_ifs at h <;> (obtain rfl := Option.some.inj h; omega)
      · obtain rfl := Option.some.inj h; omega
    · split at h
      · split_ifs at h with hf
        split at h
        · split_ifs at h <;> (obtain rfl := Option.some.inj h; omega)
        · obtain rfl := Option.some.inj h; omega
      · cases h

/-- Helper: an attribute match consumes at least one character. -/
theorem attributeLen_pos {s : List Char} {n : Nat} (h : attributeLen s = some n) : 1 ≤ n := by
  unfold attributeLen at h
  split at h
  · split at h
    · simp only [] at h
      split at h
      · split at h
        · obtain rfl := Option.some.inj h; omega
        · obtain rfl := Option.some.inj h; omega
      · obtain rfl := Option.some.inj h; omega
    · cases h
  · cases h

/-- Helper: every successful tokenizer step consumes at least one
character. -/
theorem scanStep_pos (s : List Char) (r : Option Token × Nat) (h : scanStep s = some r) :
    1 ≤ r.2 := by
  unfold scanStep at h
  cases hws : wsLen s with
  | some m =>
    rw [hws] at h
    obtain rfl := Option.some.inj h
    exact (wsLen_eq hws).2
  | none =>
  rw [hws] at h
  cases hcm : commentLen s with
  | some m =>
    rw [hcm] at h
    obtain rfl := Option.some.inj h
    exact commentLen_pos hcm
  | none =>
  rw [hcm] at h
  cases hdr : directiveLen s with
  | some m =>
    rw [hdr] at h
    obtain rfl := Option.some.inj h
    exact directiveLen_pos hdr
  | none =>
  rw [hdr] at h
  cases hst : stringLen s with
  | some m =>
    rw [hst] at h
    obtain rfl := Option.some.inj h
    exact stringLen_pos hst
  | none =>
  rw [hst] at h
  cases hnu : numberLen s with
  | some m =>
    rw [hnu] at h
    obtain rfl := Option.some.inj h
    exact numberLen_pos hnu
  | none =>
  rw [hnu] at h
  cases hat : attributeLen s with
  | some m =>
    rw [hat] at h
    obtain rfl := Option.some.inj h
    exact attributeLen_pos hat
  | none =>
  rw [hat] at h
  cases hid : identLen s with
  | some m =>
    rw [hid] at h
    obtain rfl := Option.some.inj h
    exact identLen_pos hid
  | none =>
  rw [hid] at h
  cases hop : operatorLen s with
  | some m =>
    rw [hop] at h
    obtain rfl := Option.some.inj h
    exact operatorLen_pos hop
  | none =>
    rw [hop] at h
    cases h

/-- Helper: every successful tokenizer step yields a well-formed chunk: a
token whose value is the consumed text, or a skipped whitespace run or
comment. -/
theorem scanStep_chunkOk (s : List Char) (r : Option Token × Nat) (h : scanStep s = some r) :
    chunkOk (r.1, s.take r.2) := by
  unfold scanStep at h
  cases hws : wsLen s with
  | some m =>
    rw [hws] at h
    obtain rfl := Option.some.inj h
    left
    intro c hc
    rw [(wsLen_eq hws).1, ← List.prefix_iff_eq_take.mp (List.takeWhile_prefix isJsSpace)] at hc
    exact List.mem_takeWhile_imp hc
  | none =>
  rw [hws] at h
  cases hcm : commentLen s with
  | some m =>
    rw [hcm] at h
    obtain rfl := Option.some.inj h
    right
    exact commentLen_shape hcm
  | none =>
  rw [hcm] at h
  cases hdr : directiveLen s with
  | some m =>
    rw [hdr] at h
    obtain rfl := Option.some.inj h
    rfl
  | none =>
  rw [hdr] at h
  cases hst : stringLen s with
  | some m =>
    rw [hst] at h
    obtain rfl := Option.some.inj h
    rfl
  | none =>
  rw [hst] at h
  cases hnu : numberLen s with
  | some m =>
    rw [hnu] at h
    obtain rfl := Option.some.inj h
    rfl
  | none =>
  rw [hnu] at h
  cases hat : attributeLen s with
  | some m =>
    rw [hat] at h
    obtain rfl := Option.some.inj h
    rfl
  | none =>
  rw [hat] at h
  cases hid : identLen s with
  | some m =>
    rw [hid] at h
    obtain rfl := Option.some.inj h
    rfl
  | none =>
  rw [hid] at h
  cases hop : operatorLen s with
  | some m =>
    rw [hop] at h
    obtain rfl := Option.some.inj h
    rfl
  | none =>
    rw [hop] at h
    cases h

/-- Helper: soundness of the tokenizer loop, by induction on the fuel. With
sufficient fuel it either returns tokens together with a chunk decomposition
of its input, or fails pointing at an in-range character. -/
theorem tokenizeAux_sound :
    ∀ (fuel : Nat) (s : List Char) (pos : Nat), s.length < fuel →
      (∃ (toks : List Token) (chunks : List (Option Token × List Char)),
        tokenizeAux fuel pos s = .ok toks ∧
        (chunks.map (·.2)).flatten = s ∧
        chunks.filterMap (·.1) = toks ∧
        ∀ ch ∈ chunks, chunkOk ch) ∨
      (∃ e, tokenizeAux fuel pos s = .error e ∧ pos ≤ e.pos ∧
        s[e.pos - pos]? = some e.char) := by
  intro fuel
  induction fuel with
  | zero => intro s pos h; exact absurd h (Nat.not_lt_zero _)
  | succ fuel ih =>
    intro s pos hlen
    cases s with
    | nil =>
      left
      exact ⟨[], [], rfl, rfl, rfl, by intro ch hch; simp at hch⟩
    | cons c rest =>
      have hstep : tokenizeAux (fuel + 1) pos (c :: rest) =
          (match scanStep (c :: rest) with
           | none => Except.error ⟨pos, c⟩
           | some (tk, n) =>
             match tokenizeAux fuel (pos + n) ((c :: rest).drop n) with
             | .error e => .error e
             | .ok toks => .ok (match tk with | some t => t :: toks | none => toks)) := rfl
      cases hscan : scanStep (c :: rest) with
      | none =>
        right
        refine ⟨⟨pos, c⟩, ?_, Nat.le_refl _, by simp [Nat.sub_self]⟩
        rw [hstep, hscan]
      | some r =>
        obtain ⟨tk, n⟩ := r
        have hn : 1 ≤ n := scanStep_pos _ _ hscan
        have hlen2 : ((c :: rest).drop n).length < fuel := by
          rw [List.length_drop]
          simp only [List.length_cons] at hlen ⊢
          omega
        rcases ih ((c :: rest).drop n) (pos + n) hlen2 with
          ⟨toks, chunks, hok, hjoin, hfm, hco⟩ | ⟨e, herr, hpos, hget⟩
        · left
          refine ⟨(match tk with | some t => t :: toks | none => toks),
                  (tk, (c :: rest).take n) :: chunks, ?_, ?_, ?_, ?_⟩
          · rw [hstep]
            simp only [hscan, hok]
            cases tk <;> rfl
          · rw [List.map_cons, List.flatten_cons, hjoin]
            exact List.take_append_drop n (c :: rest)
          · cases tk <;> simp [List.filterMap_cons, hfm]
          · intro ch hch
            rcases List.mem_cons.1 hch with h1 | h1
            · rw [h1]
              exact scanStep_chunkOk _ _ hscan
            · exact hco ch h1
        · right
          refine ⟨e, ?_, by omega, ?_⟩
          · rw [hstep]
            simp only [hscan, herr]
          · rw [List.getElem?_drop] at hget
            rw [show e.pos - pos = n + (e.pos - (pos + n)) from by omega]
            exact hget

/-- Claim C9. For every input string the tokenizer either returns a finite
ordered token sequence covering the entire input with no gaps — the input
splits into consecutive chunks, each chunk either a whitespace run, a comment,
or the exact text of exactly one emitted token, with the tokens in order — or,
when some position matches none of the token grammars, it fails with a
`LexError` reporting the offending character and its in-range position, and no
token list is returned. -/
theorem claim_C9_tokenizer_coverage :
    ∀ (code : String),
      (∃ (toks : List Token) (chunks : List (Option Token × List Char)),
        tokenizeWgsl code = .ok toks ∧
        (chunks.map (·.2)).flatten = code.data ∧
        chunks.filterMap (·.1) = toks ∧
        ∀ ch ∈ chunks, chunkOk ch) ∨
      (∃ e, tokenizeWgsl code = .error e ∧ e.pos < code.data.length ∧
        code.data[e.pos]? = some e.char) := by
  intro code
  rcases tokenizeAux_sound (code.data.length + 1) code.data 0 (by omega) with h | ⟨e, h1, _, h3⟩
  · left; exact h
  · right
    rw [Nat.sub_zero] at h3
    exact ⟨e, h1, (List.getElem?_eq_some.mp h3).1, h3⟩

end WgslPlus
